import Mathlib

/-!
# info_search: inverted index and boolean query evaluator

A shallow embedding of `labs/stemmer.cpp`, `labs/tokenizer.cpp` and
`labs/index.cpp`, followed by theorems about it.

Modelling conventions

* A `std::string` is a `List Nat` of byte values (`unsigned char`), so the
  Cyrillic literals of the source are their UTF-8 byte sequences (`bytes`).
* `uint32_t` / `uint64_t` arithmetic is `Nat` arithmetic followed by `u32` /
  `u64` (reduction modulo `2^32` / `2^64`).
* `std::unordered_map` is an association list with `map_find` (`find`) and
  `map_modify` (`operator[]` followed by an in-place update);
  `std::unordered_set` is a duplicate-free list with `set_insert`.  The
  iteration order of these containers is unspecified in C++: the functions
  that iterate over one take the enumeration as an argument, and the
  reachable states are closed under every enumeration.
* The process never calls `setlocale`, so `std::isspace` and `std::tolower`
  are those of the "C" locale.
-/

namespace InfoSearch

/-! ## Bytes and machine integers -/

/-- UTF-8 encoding of one code point. -/
def utf8Char (n : Nat) : List Nat :=
  if n < 128 then [n]
  else if n < 2048 then [192 + n / 64, 128 + n % 64]
  else if n < 65536 then [224 + n / 4096, 128 + (n / 64) % 64, 128 + n % 64]
  else [240 + n / 262144, 128 + (n / 4096) % 64, 128 + (n / 64) % 64, 128 + n % 64]

/-- The bytes of a string literal of the (UTF-8 encoded) source files. -/
def bytes (s : String) : List Nat :=
  s.data.flatMap (fun c => utf8Char c.toNat)

/-- Wrap-around of `uint32_t`. -/
def u32 (n : Nat) : Nat := n % 4294967296

/-- Wrap-around of `uint64_t`. -/
def u64 (n : Nat) : Nat := n % 18446744073709551616

/-! ## Data model (`index.hpp`, `tokenizer.hpp`) -/

/-- Source `struct Posting { uint64_t doc_id; uint32_t tf; }`. -/
structure Posting where
  doc_id : Nat
  tf : Nat
  deriving DecidableEq, Repr

/-- Source `struct TokenInfo { uint64_t cf{0}; uint32_t df{0}; std::vector<Posting> postings; }`. -/
structure TokenInfo where
  cf : Nat := 0
  df : Nat := 0
  postings : List Posting := []
  deriving DecidableEq, Repr

/-- Source `struct SearchHit { uint64_t doc_id; uint64_t score; }`. -/
structure SearchHit where
  doc_id : Nat
  score : Nat
  deriving DecidableEq, Repr

/-- Source `struct Document`. -/
structure Document where
  id : Nat := 0
  source : List Nat := []
  url : List Nat := []
  title : List Nat := []
  text : List Nat := []
  deriving DecidableEq, Repr

/-- Source `struct TokenizationStats`. -/
structure TokenizationStats where
  docs : Nat := 0
  tokens : Nat := 0
  token_chars : Nat := 0
  bytes_in : Nat := 0
  deriving DecidableEq, Repr

/-! ## Containers -/

/-- Lookup `m.find(key)` on an `unordered_map`: `none` is `end()`. -/
def map_find {κ ν : Type} [DecidableEq κ] : List (κ × ν) → κ → Option ν
  | [], _ => none
  | (k, v) :: m, key => if k = key then some v else map_find m key

/-- Update `f(m[key])` on an `unordered_map`: the entry is value-initialised to
`dflt` when absent, then updated in place by `f`. -/
def map_modify {κ ν : Type} [DecidableEq κ] (dflt : ν) (f : ν → ν) :
    List (κ × ν) → κ → List (κ × ν)
  | [], key => [(key, f dflt)]
  | (k, v) :: m, key =>
    if k = key then (k, f v) :: m else (k, v) :: map_modify dflt f m key

/-- Insertion `s.insert(x)` on an `unordered_set`. -/
def set_insert {κ : Type} [DecidableEq κ] (s : List κ) (x : κ) : List κ :=
  if x ∈ s then s else s ++ [x]

/-- Inserting a range of elements, one after the other. -/
def set_insert_all {κ : Type} [DecidableEq κ] (s : List κ) (xs : List κ) : List κ :=
  xs.foldl set_insert s

/-! ## `stemmer.cpp` -/

/-- The suffix table `endings` of `stem_word`, in declared order. -/
def endings : List (List Nat) :=
  [ "овать", "ывать", "ировать", "ующий", "ation",
    "иями", "ями", "иями", "ения", "ении",
    "ость", "ости", "ост", "остью",
    "ский", "ская", "ское", "ские",
    "ого", "ему", "ыми", "его", "ому",
    "ать", "ять", "ить", "еть",
    "ом", "ам", "ах", "ях",
    "ой", "ей", "ый", "ий",
    "ов", "ев", "ам", "ям",
    "ы", "и", "е", "я", "ю", "ь" ].map bytes

/-- The `for` loop of `stem_word` over the remaining suffixes. -/
def stem_loop (word : List Nat) : List (List Nat) → List Nat
  | [] => word
  | suf :: rest =>
    if word.length > suf.length + 1 ∧ word.drop (word.length - suf.length) = suf then
      word.take (word.length - suf.length)
    else stem_loop word rest

/-- Function `std::string stem_word(const std::string &word)`. -/
def stem_word (word : List Nat) : List Nat :=
  if word.length < 4 then word else stem_loop word endings

/-! ## Helpers of `index.cpp` -/

/-- Function `std::isspace` in the "C" locale: space, and `\t \n \v \f \r`. -/
def isspace (c : Nat) : Bool :=
  c == 32 || (decide (9 ≤ c) && decide (c ≤ 13))

/-- Function `std::tolower` in the "C" locale. -/
def tolower (c : Nat) : Nat :=
  if 65 ≤ c ∧ c ≤ 90 then c + 32 else c

/-- Function `trim`: `start` skips the leading white space, `end` the trailing one. -/
def trim (s : List Nat) : List Nat :=
  ((s.dropWhile isspace).reverse.dropWhile isspace).reverse

/-- Function `split(s, delim)`: the items `std::getline` extracts.  Each call reads up
to and including the next delimiter; the call that finds the stream at its end
extracts nothing and fails, which ends the loop: a trailing delimiter opens no
further item, and the empty string has no item. -/
def split : List Nat → Nat → List (List Nat)
  | [], _ => []
  | c :: rest, delim =>
    if c = delim then [] :: split rest delim
    else
      match split rest delim with
      | [] => [[c]]
      | item :: items => (c :: item) :: items

/-- Function `normalize_term`: ASCII lower-casing, then `stem_word`. -/
def normalize_term (s : List Nat) : List Nat :=
  stem_word (s.map (fun c => if 65 ≤ c ∧ c ≤ 90 then c + 32 else c))

/-! ## `tokenizer.cpp` -/

/-- The table `kStopwords`. -/
def kStopwords : List (List Nat) :=
  [ "в", "и", "на", "с", "по", "для", "от", "к", "как", "это",
    "то", "он", "она", "оно", "они", "мы", "вы", "я", "ты", "мне",
    "тебе", "нам", "вам", "ему", "ей", "им", "их", "его", "её",
    "что", "кто", "где", "когда", "почему", "зачем", "который",
    "есть", "быть", "иметь", "делать", "идти", "приходить",
    "а", "но", "если", "то", "или", "либо", "же", "ли",
    "не", "ни", "нет", "никогда", "никто", "ничто",
    "более", "менее", "очень", "совсем", "почти", "всегда",
    "здесь", "там", "туда", "сюда", "отсюда",
    "новости", "ria", "ru", "https", "http", "com", "org", "net",
    "отправить", "класс", "onclick", "href", "src", "www" ].map bytes

/-- Function `BuildStopwordSet`: the entries of `kStopwords`, inserted in turn. -/
def BuildStopwordSet : List (List Nat) :=
  set_insert_all [] kStopwords

/-- Function `Stopwords()`: the static set, built once. -/
def Stopwords : List (List Nat) :=
  BuildStopwordSet

/-- Function `to_lower_ascii`. -/
def to_lower_ascii (c : Nat) : Nat :=
  if 65 ≤ c ∧ c ≤ 90 then c + 32 else tolower c

/-- Function `is_token_char`. -/
def is_token_char (c : Nat) : Bool :=
  if (97 ≤ c ∧ c ≤ 122) ∨ (48 ≤ c ∧ c ≤ 57) ∨ c = 45 then true
  else if 128 ≤ c then true
  else false

/-- The loop of `strip_tags`, from the state `in_tag`; the result is what is
appended to `out`. -/
def strip_tags_loop : List Nat → Bool → List Nat
  | [], _ => []
  | c :: cs, in_tag =>
    if c = 60 then strip_tags_loop cs true
    else if c = 62 ∧ in_tag = true then strip_tags_loop cs false
    else if in_tag = false then c :: strip_tags_loop cs in_tag
    else strip_tags_loop cs in_tag

/-- Function `strip_tags`. -/
def strip_tags (html : List Nat) : List Nat :=
  strip_tags_loop html false

/-- What the body of `tokenize_document` reads and writes: the local `token`
and the two reference parameters. -/
structure TokenizerState where
  token : List Nat := []
  freqs : List (List Nat × Nat) := []
  stats : TokenizationStats := {}
  deriving DecidableEq, Repr

/-- The lambda `flush` of `tokenize_document`. -/
def flush (st : TokenizerState) : TokenizerState :=
  if st.token = [] then st
  else if st.token ∉ Stopwords then
    { token := []
      freqs := map_modify 0 (fun n => u32 (n + 1)) st.freqs st.token
      stats := { st.stats with
                 tokens := u64 (st.stats.tokens + 1)
                 token_chars := u64 (st.stats.token_chars + st.token.length) } }
  else { st with token := [] }

/-- The scanning loop of `tokenize_document`. -/
def tokenize_loop : List Nat → TokenizerState → TokenizerState
  | [], st => st
  | c :: cs, st =>
    if is_token_char c = true then
      tokenize_loop cs { st with token := st.token ++ [to_lower_ascii c] }
    else tokenize_loop cs (flush st)

/-- Function `tokenize_document(doc, freqs, stats)`: the final `freqs` and `stats`. -/
def tokenize_document (doc : Document) (freqs : List (List Nat × Nat))
    (stats : TokenizationStats) : List (List Nat × Nat) × TokenizationStats :=
  let text := strip_tags doc.text
  let st : TokenizerState :=
    { token := []
      freqs := freqs
      stats := { stats with
                 docs := u64 (stats.docs + 1)
                 bytes_in := u64 (stats.bytes_in + text.length) } }
  let st := flush (tokenize_loop text st)
  (st.freqs, st.stats)

/-! ## `InvertedIndex` -/

/-- The private members of `class InvertedIndex`. -/
structure InvertedIndex where
  index_ : List (List Nat × TokenInfo) := []
  docs_ : List Document := []
  stats_ : TokenizationStats := {}
  deriving DecidableEq, Repr

/-- Method `vocab_size()`. -/
def vocab_size (s : InvertedIndex) : Nat := s.index_.length

/-- Method `doc_count()`. -/
def doc_count (s : InvertedIndex) : Nat := s.docs_.length

/-- One iteration of the `for (kv : freqs)` loop of `add_document`, as an
update of `index_[term]`. -/
def add_posting (doc_id freq : Nat) (info : TokenInfo) : TokenInfo :=
  { cf := u64 (info.cf + freq)
    df := u32 (info.df + 1)
    postings := info.postings ++ [{ doc_id := doc_id, tf := freq }] }

/-- The `for (kv : freqs)` loop of `add_document` over an enumeration of
`freqs`. -/
def index_entries (doc_id : Nat) :
    List (List Nat × TokenInfo) → List (List Nat × Nat) → List (List Nat × TokenInfo)
  | index, [] => index
  | index, (tok, freq) :: rest =>
    index_entries doc_id
      (map_modify {} (add_posting doc_id freq) index (normalize_term tok)) rest

/-- Method `add_document(doc)` when the loop visits the entries of `freqs` in the
order `order`. -/
def add_document_iter (s : InvertedIndex) (doc : Document)
    (order : List (List Nat × Nat)) : InvertedIndex :=
  { index_ := index_entries doc.id s.index_ order
    docs_ := s.docs_ ++ [{ doc with text := [] }]
    stats_ := (tokenize_document doc [] s.stats_).2 }

/-- Method `add_document(doc)` with `freqs` visited in order of first occurrence. -/
def add_document (s : InvertedIndex) (doc : Document) : InvertedIndex :=
  add_document_iter s doc (tokenize_document doc [] s.stats_).1

/-- The states an `InvertedIndex` can be in: it is created empty and changed
by `add_document` only, whose loop may visit `freqs` in any order. -/
inductive Reachable : InvertedIndex → Prop
  | empty : Reachable {}
  | add (s : InvertedIndex) (doc : Document) (order : List (List Nat × Nat)) :
      Reachable s → order.Perm (tokenize_document doc [] s.stats_).1 →
      Reachable (add_document_iter s doc order)

/-! ## `InvertedIndex::search` -/

/-- The inner loop that fills `terms` from one raw group: the trimmed,
non-empty items between `&`, normalised. -/
def group_terms (raw_group : List Nat) : List (List Nat) :=
  (split raw_group 38).filterMap
    (fun t => if trim t = [] then none else some (normalize_term (trim t)))

/-- The `term_set` built from a posting list. -/
def term_set (postings : List Posting) : List Nat :=
  set_insert_all [] (postings.map Posting.doc_id)

/-- The set `intersect` of the ids of `group_set` found in `term_set`. -/
def intersect_sets (group_set term_set : List Nat) : List Nat :=
  set_insert_all [] (group_set.filter (fun id => id ∈ term_set))

/-- The loop over the terms of one group, from the current `group_set` and
`first_term`; both `break`s end the recursion. -/
def group_loop (index : List (List Nat × TokenInfo)) :
    List (List Nat) → List Nat → Bool → List Nat
  | [], group_set, _ => group_set
  | term :: rest, group_set, first_term =>
    match map_find index term with
    | none => []
    | some info =>
      let group_set :=
        if first_term = true then term_set info.postings
        else intersect_sets group_set (term_set info.postings)
      if group_set = [] then group_set else group_loop index rest group_set false

/-- The loop over the raw groups, from the current `final_set` and
`first_group`. -/
def groups_loop (index : List (List Nat × TokenInfo)) :
    List (List Nat) → List Nat → Bool → List Nat
  | [], final_set, _ => final_set
  | raw_group :: rest, final_set, first_group =>
    let terms := group_terms raw_group
    if terms = [] then groups_loop index rest final_set first_group
    else
      let group_set := group_loop index terms [] true
      if group_set = [] then groups_loop index rest final_set first_group
      else if first_group = true then groups_loop index rest group_set false
      else groups_loop index rest (set_insert_all final_set group_set) false

/-- The `final_set` of `search`, in the order the model inserts its ids. -/
def final_set (index : List (List Nat × TokenInfo)) (query : List Nat) : List Nat :=
  groups_loop index (split query 124) [] true

/-- The set `unique_terms` of `search`, in the order the model inserts. -/
def unique_terms (query : List Nat) : List (List Nat) :=
  set_insert_all [] ((split query 124).flatMap group_terms)

/-- The loop over the postings of one term: `scores[p.doc_id] += p.tf` for
the postings whose document is in `final_set`. -/
def score_postings (final_set : List Nat) :
    List Posting → List (Nat × Nat) → List (Nat × Nat)
  | [], scores => scores
  | p :: ps, scores =>
    if p.doc_id ∈ final_set then
      score_postings final_set ps (map_modify 0 (fun v => u64 (v + p.tf)) scores p.doc_id)
    else score_postings final_set ps scores

/-- The loop over an enumeration of `unique_terms`. -/
def score_terms (index : List (List Nat × TokenInfo)) (final_set : List Nat) :
    List (List Nat) → List (Nat × Nat) → List (Nat × Nat)
  | [], scores => scores
  | term :: rest, scores =>
    match map_find index term with
    | none => score_terms index final_set rest scores
    | some info =>
      score_terms index final_set rest (score_postings final_set info.postings scores)

/-- The value read by `scores[id]`. -/
def score_at (scores : List (Nat × Nat)) (id : Nat) : Nat :=
  (map_find scores id).getD 0

/-- The comparator passed to `std::sort`. -/
def hit_less (a b : SearchHit) : Bool :=
  if a.score ≠ b.score then decide (a.score > b.score) else decide (a.doc_id < b.doc_id)

/-- Insertion of one hit into a sorted vector. -/
def sort_insert (x : SearchHit) : List SearchHit → List SearchHit
  | [] => [x]
  | y :: ys => if hit_less y x = true then y :: sort_insert x ys else x :: y :: ys

/-- Call `std::sort(hits.begin(), hits.end(), hit_less)`, as an insertion sort.
(No two hits of `search` compare equivalent, so every sorting algorithm
returns this list: see `sorted_hits_unique`.) -/
def sort_hits : List SearchHit → List SearchHit
  | [] => []
  | x :: xs => sort_insert x (sort_hits xs)

/-- The part of `search` after `final_set` is known to be non-empty, when
`final_set` is enumerated as `ids` and `unique_terms` as `terms`. -/
def rank_hits (index : List (List Nat × TokenInfo)) (ids : List Nat)
    (terms : List (List Nat)) : List SearchHit :=
  let scores := score_terms index ids terms []
  sort_hits (ids.map (fun id => { doc_id := id, score := score_at scores id }))

/-- The part of `search` after `final_set` is built, when `final_set` is
enumerated as `ids` and `unique_terms` as `terms`. -/
def search_iter (s : InvertedIndex) (ids : List Nat) (terms : List (List Nat)) :
    List SearchHit :=
  if ids = [] then [] else rank_hits s.index_ ids terms

/-- Method `InvertedIndex::search(query)`, the sets enumerated in the order of
insertion. -/
def search (s : InvertedIndex) (query : List Nat) : List SearchHit :=
  search_iter s (final_set s.index_ query) (unique_terms query)

/-- The doc ids of a hit list. -/
def hit_ids (hits : List SearchHit) : List Nat :=
  hits.map SearchHit.doc_id

/-! ## The corpus of the scenarios -/

/-- Scenario document 1. -/
def doc1 : Document := { id := 1, text := bytes "кошка и собака" }

/-- Scenario document 2. -/
def doc2 : Document := { id := 2, text := bytes "собака бежит" }

/-- The index after ingesting the two scenario documents. -/
def corpus : InvertedIndex := add_document (add_document {} doc1) doc2

/-! ## The statement side: what a query denotes -/

/-- The doc ids of the posting list of `term`; empty when `term` is not a key
of the index. -/
def posting_ids (index : List (List Nat × TokenInfo)) (term : List Nat) : List Nat :=
  match map_find index term with
  | none => []
  | some info => info.postings.map Posting.doc_id

/-- Sum of the `term_frequency` of the postings of a list for document `d`. -/
def posting_weight (postings : List Posting) (d : Nat) : Nat :=
  ((postings.filter (fun p => p.doc_id = d)).map Posting.tf).sum

/-- Sum of the `term_frequency` of the postings of `term` for document `d`;
zero when `term` is not a key of the index. -/
def term_weight (index : List (List Nat × TokenInfo)) (d : Nat) (term : List Nat) : Nat :=
  match map_find index term with
  | none => 0
  | some info => posting_weight info.postings d

/-- The normalised non-empty terms of a query, over all its groups, with
repetitions. -/
def query_terms (query : List Nat) : List (List Nat) :=
  (split query 124).flatMap
    (fun g => (((split g 38).map trim).filter (fun t => t ≠ [])).map normalize_term)

/-- Sum, over the terms of `ts` that are keys of the index, of the
`term_frequency` of their postings for document `d`. -/
def query_weight (index : List (List Nat × TokenInfo)) (ts : List (List Nat)) (d : Nat) : Nat :=
  ((ts.filter (fun t => (map_find index t).isSome)).map (term_weight index d)).sum

/-- Document `d` satisfies the raw AND-group `g`: `g` has a term that is
non-empty after trimming and `d` is in the posting list of every such term. -/
def group_matches (index : List (List Nat × TokenInfo)) (g : List Nat) (d : Nat) : Prop :=
  (∃ t ∈ split g 38, trim t ≠ []) ∧
    ∀ t ∈ split g 38, trim t ≠ [] → d ∈ posting_ids index (normalize_term (trim t))

/-- Document `d` satisfies the query: it satisfies one of its OR-groups. -/
def query_matches (index : List (List Nat × TokenInfo)) (query : List Nat) (d : Nat) : Prop :=
  ∃ g ∈ split query 124, group_matches index g d

/-- The order `std::sort` leaves between an earlier and a later element: the
later one is not less than the earlier one. -/
def hit_le (a b : SearchHit) : Prop := hit_less b a = false

/-- The histories of an index: `Built docs s` when `s` is the state after
`add_document` was called on the documents of `docs`, in that order, starting
from the empty index (each call visiting its `freqs` in some order). -/
inductive Built : List Document → InvertedIndex → Prop
  | empty : Built [] {}
  | add (docs : List Document) (s : InvertedIndex) (doc : Document)
      (order : List (List Nat × Nat)) :
      Built docs s → order.Perm (tokenize_document doc [] s.stats_).1 →
      Built (docs ++ [doc]) (add_document_iter s doc order)

/-- The count invariant of one `TokenInfo`, on the machine integers. -/
def counts_ok (info : TokenInfo) : Prop :=
  info.df = u32 info.postings.length ∧
    info.cf = u64 (info.postings.map Posting.tf).sum

/-- A document whose text holds two surface tokens with the same stem. -/
def doc_abc : Document := { id := 1, text := bytes "abc abcation" }

/-- The same with Cyrillic tokens. -/
def doc_kot : Document := { id := 1, text := bytes "кот коты" }

/-- The bytes a token is made of, and not empty. -/
def clean_token (w : List Nat) : Prop :=
  w ≠ [] ∧ ∀ c ∈ w, is_token_char c = true

/-- The tokens of `doc` that `tokenize_document` retains: the keys of the
frequency map it fills. -/
def retained_tokens (doc : Document) : List (List Nat) :=
  (tokenize_document doc [] {}).1.map Prod.fst

/-! ## The statement side: tokens, counters and entries -/

/-- Splitting a text at the bytes that are not token bytes: the run of token
bytes the text starts with, and the runs that follow each later separator
byte, in order.  A run is empty where two separators are adjacent, or the
text starts or ends with one. -/
def split_runs : List Nat → List Nat × List (List Nat)
  | [] => ([], [])
  | c :: cs =>
    if is_token_char c = true then (c :: (split_runs cs).1, (split_runs cs).2)
    else ([], (split_runs cs).1 :: (split_runs cs).2)

/-- The maximal runs of token bytes of a text, in order of occurrence; the
empty runs are discarded. -/
def token_runs (text : List Nat) : List (List Nat) :=
  ((split_runs text).1 :: (split_runs text).2).filter (fun r => r ≠ [])

/-- The retained token occurrences of a text: its maximal runs of token bytes
that are not in the stopword list. -/
def retained_runs (text : List Nat) : List (List Nat) :=
  (token_runs text).filter (fun r => r ∉ kStopwords)

/-- The entries of an enumeration of `freqs` whose token normalises to `term`. -/
def entries_of (term : List Nat) (entries : List (List Nat × Nat)) : List (List Nat × Nat) :=
  entries.filter (fun e => normalize_term e.1 = term)

/-- The postings `add_document` appends for a list of entries. -/
def postings_of (doc_id : Nat) (entries : List (List Nat × Nat)) : List Posting :=
  entries.map (fun e => { doc_id := doc_id, tf := e.2 })

/-- The `TokenInfo` of a term, the value-initialised one when it is not a key. -/
def info_of (index : List (List Nat × TokenInfo)) (term : List Nat) : TokenInfo :=
  (map_find index term).getD {}

/-- The frequency map after `++freqs[token]` for each token of a list. -/
def count_tokens (freqs : List (List Nat × Nat)) (toks : List (List Nat)) :
    List (List Nat × Nat) :=
  toks.foldl (fun m tok => map_modify 0 (fun n => u32 (n + 1)) m tok) freqs

/-- The statistics after `tokens += 1` and `token_chars += token.size()` for
each token of a list. -/
def count_stats (stats : TokenizationStats) (toks : List (List Nat)) : TokenizationStats :=
  toks.foldl
    (fun st tok => { st with tokens := u64 (st.tokens + 1)
                             token_chars := u64 (st.token_chars + tok.length) }) stats

/-- A text with markup, a stopword, a URL and punctuation. -/
def doc_mixed : Document :=
  { id := 3, text := bytes "кот и кот, http://кот-9 <b>ru</b> x" }

/-- A statistics state that has seen seven documents. -/
def stats_seven : TokenizationStats :=
  { docs := 7, tokens := 100, token_chars := 500, bytes_in := 1000 }

/-- A document in which `abc` occurs twice and `abcation`, of the same stem,
once. -/
def doc_two_forms : Document := { id := 3, text := bytes "abc abcation abc" }

/-! ## The statement side: sums over the index -/

/-- The sum of `cf` over the entries of the index. -/
def cf_sum (index : List (List Nat × TokenInfo)) : Nat :=
  (index.map (fun e => e.2.cf)).sum

/-- The number of retained token occurrences of the documents of a list. -/
def retained_total (docs : List Document) : Nat :=
  (docs.map (fun d => (retained_runs (strip_tags d.text)).length)).sum

/-- No single token occurs `2^32` times or more in one document of the list. -/
def token_counts_fit (docs : List Document) : Prop :=
  ∀ d ∈ docs, ∀ w, (token_runs (strip_tags d.text)).count w < 2 ^ 32

/-- A frequency map in which every count is at least 1 and can still take the
occurrences of its key in `toks` without wrapping. -/
def counts_fit (freqs : List (List Nat × Nat)) (toks : List (List Nat)) : Prop :=
  (∀ e ∈ freqs, 1 ≤ e.2 ∧ e.2 + toks.count e.1 < 2 ^ 32) ∧
    ∀ w, toks.count w < 2 ^ 32

/-- The document whose text is `n` times the token `x` followed by a blank. -/
def doc_repeat (n : Nat) : Document :=
  { id := 1, text := (List.replicate n [120, 32]).flatten }

/-- The document of id `k` whose text is the single token `x`. -/
def doc_x (k : Nat) : Document := { id := k, text := bytes "x" }

/-- The index after `add_document` was called on `doc_x 1`, ..., `doc_x n`. -/
def index_of_x : Nat → InvertedIndex
  | 0 => {}
  | n + 1 => add_document (index_of_x n) (doc_x (n + 1))

/-! ## Lemmas on the containers -/

theorem mem_set_insert {κ : Type} [DecidableEq κ] (s : List κ) (x y : κ) :
    y ∈ set_insert s x ↔ y ∈ s ∨ y = x := by
  unfold set_insert
  split
  · constructor
    · exact Or.inl
    · rintro (h | rfl) <;> assumption
  · simp

theorem mem_set_insert_all {κ : Type} [DecidableEq κ] (xs s : List κ) (y : κ) :
    y ∈ set_insert_all s xs ↔ y ∈ s ∨ y ∈ xs := by
  induction xs generalizing s with
  | nil => simp [set_insert_all]
  | cons x xs ih =>
    have h := ih (set_insert s x)
    simp only [set_insert_all, List.foldl_cons] at h ⊢
    rw [h, mem_set_insert]
    simp only [List.mem_cons]
    tauto

theorem nodup_set_insert {κ : Type} [DecidableEq κ] (s : List κ) (x : κ)
    (h : s.Nodup) : (set_insert s x).Nodup := by
  unfold set_insert
  split
  · exact h
  · rename_i hx
    rw [List.nodup_append]
    refine ⟨h, List.nodup_singleton x, ?_⟩
    intro a ha hb
    simp only [List.mem_singleton] at hb
    subst hb
    exact hx ha

theorem nodup_set_insert_all {κ : Type} [DecidableEq κ] (xs s : List κ)
    (h : s.Nodup) : (set_insert_all s xs).Nodup := by
  induction xs generalizing s with
  | nil => simpa [set_insert_all] using h
  | cons x xs ih =>
    have h2 := ih (set_insert s x) (nodup_set_insert s x h)
    simpa only [set_insert_all, List.foldl_cons] using h2

theorem mem_term_set (ps : List Posting) (d : Nat) :
    d ∈ term_set ps ↔ d ∈ ps.map Posting.doc_id := by
  simp [term_set, mem_set_insert_all]

theorem nodup_term_set (ps : List Posting) : (term_set ps).Nodup :=
  nodup_set_insert_all _ _ List.nodup_nil

theorem mem_intersect_sets (g t : List Nat) (d : Nat) :
    d ∈ intersect_sets g t ↔ d ∈ g ∧ d ∈ t := by
  simp [intersect_sets, mem_set_insert_all]

theorem nodup_intersect_sets (g t : List Nat) : (intersect_sets g t).Nodup :=
  nodup_set_insert_all _ _ List.nodup_nil

/-! ## Lemmas on the group loops of `search` -/

theorem posting_ids_of_find_none {index : List (List Nat × TokenInfo)} {term : List Nat}
    (h : map_find index term = none) : posting_ids index term = [] := by
  simp [posting_ids, h]

theorem posting_ids_of_find_some {index : List (List Nat × TokenInfo)} {term : List Nat}
    {info : TokenInfo} (h : map_find index term = some info) :
    posting_ids index term = info.postings.map Posting.doc_id := by
  simp [posting_ids, h]

theorem mem_group_loop_rest (index : List (List Nat × TokenInfo)) (terms : List (List Nat))
    (gs : List Nat) (d : Nat) :
    d ∈ group_loop index terms gs false ↔
      d ∈ gs ∧ ∀ t ∈ terms, d ∈ posting_ids index t := by
  induction terms generalizing gs with
  | nil => simp [group_loop]
  | cons t rest ih =>
    unfold group_loop
    cases hf : map_find index t with
    | none =>
      simp only [List.not_mem_nil, false_iff, not_and]
      intro _ hall
      have := hall t (List.mem_cons_self _ _)
      rw [posting_ids_of_find_none hf] at this
      exact absurd this (List.not_mem_nil _)
    | some info =>
      simp only [Bool.false_eq_true, if_false]
      have hp := posting_ids_of_find_some hf
      by_cases he : intersect_sets gs (term_set info.postings) = []
      · rw [if_pos he, he]
        simp only [List.not_mem_nil, false_iff, not_and]
        intro hd hall
        have h1 := hall t (List.mem_cons_self _ _)
        rw [hp, ← mem_term_set] at h1
        have h2 := (mem_intersect_sets gs (term_set info.postings) d).2 ⟨hd, h1⟩
        rw [he] at h2
        exact absurd h2 (List.not_mem_nil _)
      · rw [if_neg he, ih, mem_intersect_sets, mem_term_set, ← hp]
        simp only [List.mem_cons, forall_eq_or_imp]
        tauto

theorem mem_group_loop_first (index : List (List Nat × TokenInfo)) (t : List Nat)
    (rest : List (List Nat)) (gs : List Nat) (d : Nat) :
    d ∈ group_loop index (t :: rest) gs true ↔
      ∀ u ∈ t :: rest, d ∈ posting_ids index u := by
  unfold group_loop
  cases hf : map_find index t with
  | none =>
    simp only [List.not_mem_nil, false_iff, not_forall]
    refine ⟨t, List.mem_cons_self _ _, ?_⟩
    rw [posting_ids_of_find_none hf]
    exact List.not_mem_nil _
  | some info =>
    simp only [if_true]
    have hp := posting_ids_of_find_some hf
    by_cases he : term_set info.postings = []
    · rw [if_pos he, he]
      simp only [List.not_mem_nil, false_iff, not_forall]
      refine ⟨t, List.mem_cons_self _ _, ?_⟩
      rw [hp, ← mem_term_set, he]
      exact List.not_mem_nil _
    · rw [if_neg he, mem_group_loop_rest, mem_term_set, ← hp]
      simp only [List.mem_cons, forall_eq_or_imp]

theorem nodup_group_loop (index : List (List Nat × TokenInfo)) (terms : List (List Nat))
    (gs : List Nat) (first : Bool) (h : gs.Nodup) :
    (group_loop index terms gs first).Nodup := by
  induction terms generalizing gs first with
  | nil => simpa [group_loop] using h
  | cons t rest ih =>
    unfold group_loop
    cases hf : map_find index t with
    | none => exact List.nodup_nil
    | some info =>
      simp only
      cases first with
      | true =>
        simp only [if_true]
        split
        · exact nodup_term_set _
        · exact ih _ _ (nodup_term_set _)
      | false =>
        simp only [Bool.false_eq_true, if_false]
        split
        · exact nodup_intersect_sets _ _
        · exact ih _ _ (nodup_intersect_sets _ _)

theorem mem_group_terms (g t : List Nat) :
    t ∈ group_terms g ↔ ∃ r ∈ split g 38, trim r ≠ [] ∧ normalize_term (trim r) = t := by
  unfold group_terms
  rw [List.mem_filterMap]
  constructor
  · rintro ⟨r, hr, h⟩
    by_cases he : trim r = []
    · simp [he] at h
    · rw [if_neg he] at h
      exact ⟨r, hr, he, Option.some.inj h⟩
  · rintro ⟨r, hr, he, h⟩
    exact ⟨r, hr, by rw [if_neg he, h]⟩

theorem group_terms_ne_nil (g : List Nat) :
    group_terms g ≠ [] ↔ ∃ r ∈ split g 38, trim r ≠ [] := by
  constructor
  · intro h
    obtain ⟨t, ht⟩ := List.exists_mem_of_ne_nil _ h
    obtain ⟨r, hr, he, _⟩ := (mem_group_terms g t).1 ht
    exact ⟨r, hr, he⟩
  · rintro ⟨r, hr, he⟩ hnil
    have hm := (mem_group_terms g _).2 ⟨r, hr, he, rfl⟩
    rw [hnil] at hm
    exact absurd hm (List.not_mem_nil _)

theorem group_matches_iff (index : List (List Nat × TokenInfo)) (g : List Nat) (d : Nat) :
    group_matches index g d ↔
      group_terms g ≠ [] ∧ ∀ t ∈ group_terms g, d ∈ posting_ids index t := by
  unfold group_matches
  rw [group_terms_ne_nil]
  refine and_congr_right (fun _ => ?_)
  constructor
  · intro h t ht
    obtain ⟨r, hr, he, rfl⟩ := (mem_group_terms g t).1 ht
    exact h r hr he
  · intro h r hr he
    exact h _ ((mem_group_terms g _).2 ⟨r, hr, he, rfl⟩)

theorem mem_group_set (index : List (List Nat × TokenInfo)) (terms : List (List Nat))
    (d : Nat) (h : terms ≠ []) :
    d ∈ group_loop index terms [] true ↔ ∀ t ∈ terms, d ∈ posting_ids index t := by
  cases terms with
  | nil => exact absurd rfl h
  | cons t rest => exact mem_group_loop_first index t rest [] d

theorem mem_groups_loop (index : List (List Nat × TokenInfo)) (groups : List (List Nat))
    (fs : List Nat) (first : Bool) (d : Nat) (h0 : first = true → fs = []) :
    d ∈ groups_loop index groups fs first ↔
      d ∈ fs ∨ ∃ g ∈ groups, group_matches index g d := by
  induction groups generalizing fs first with
  | nil => simp [groups_loop]
  | cons g rest ih =>
    unfold groups_loop
    simp only [List.mem_cons, exists_eq_or_imp]
    by_cases ht : group_terms g = []
    · rw [if_pos ht, ih fs first h0]
      have : ¬ group_matches index g d := by
        rw [group_matches_iff]
        exact fun hm => hm.1 ht
      tauto
    · rw [if_neg ht]
      have hg : group_matches index g d ↔ d ∈ group_loop index (group_terms g) [] true := by
        rw [group_matches_iff, mem_group_set index _ d ht]
        exact and_iff_right ht
      by_cases he : group_loop index (group_terms g) [] true = []
      · rw [if_pos he, ih fs first h0]
        have : ¬ group_matches index g d := by
          rw [hg, he]
          exact List.not_mem_nil _
        tauto
      · rw [if_neg he]
        cases first with
        | true =>
          rw [if_pos rfl, ih _ false (by simp), hg, h0 rfl]
          simp
        | false =>
          rw [if_neg (by simp), ih _ false (by simp), mem_set_insert_all, hg]
          tauto

theorem nodup_groups_loop (index : List (List Nat × TokenInfo)) (groups : List (List Nat))
    (fs : List Nat) (first : Bool) (h : fs.Nodup) :
    (groups_loop index groups fs first).Nodup := by
  induction groups generalizing fs first with
  | nil => simpa [groups_loop] using h
  | cons g rest ih =>
    unfold groups_loop
    simp only
    split
    · exact ih _ _ h
    · split
      · exact ih _ _ h
      · split
        · exact ih _ _ (nodup_group_loop _ _ _ _ List.nodup_nil)
        · exact ih _ _ (nodup_set_insert_all _ _ h)

theorem mem_final_set (index : List (List Nat × TokenInfo)) (query : List Nat) (d : Nat) :
    d ∈ final_set index query ↔ query_matches index query d := by
  unfold final_set query_matches
  rw [mem_groups_loop index _ [] true d (fun _ => rfl)]
  simp

theorem nodup_final_set (index : List (List Nat × TokenInfo)) (query : List Nat) :
    (final_set index query).Nodup :=
  nodup_groups_loop _ _ _ _ List.nodup_nil

/-! ## Lemmas on sorting -/

theorem hit_less_iff (a b : SearchHit) :
    hit_less a b = true ↔
      a.score > b.score ∨ (a.score = b.score ∧ a.doc_id < b.doc_id) := by
  unfold hit_less
  split <;> simp only [decide_eq_true_eq] <;> omega

theorem sort_insert_perm (x : SearchHit) (l : List SearchHit) :
    (sort_insert x l).Perm (x :: l) := by
  induction l with
  | nil => exact List.Perm.refl _
  | cons y ys ih =>
    unfold sort_insert
    split
    · exact (List.Perm.cons y ih).trans (List.Perm.swap x y ys)
    · exact List.Perm.refl _

theorem sort_hits_perm (l : List SearchHit) : (sort_hits l).Perm l := by
  induction l with
  | nil => exact List.Perm.refl _
  | cons x xs ih =>
    unfold sort_hits
    exact (sort_insert_perm x _).trans (List.Perm.cons x ih)

theorem hit_le_iff (a b : SearchHit) :
    hit_le a b ↔ a.score > b.score ∨ (a.score = b.score ∧ a.doc_id ≤ b.doc_id) := by
  unfold hit_le
  rw [← Bool.not_eq_true, hit_less_iff]
  omega

theorem sort_insert_sorted (x : SearchHit) (l : List SearchHit)
    (h : l.Pairwise hit_le) : (sort_insert x l).Pairwise hit_le := by
  induction l with
  | nil => simp [sort_insert]
  | cons y ys ih =>
    rw [List.pairwise_cons] at h
    unfold sort_insert
    split
    · rename_i hyx
      rw [List.pairwise_cons]
      refine ⟨?_, ih h.2⟩
      intro z hz
      rcases (List.mem_cons.1 ((sort_insert_perm x ys).mem_iff.1 hz)) with rfl | hz
      · rw [hit_less_iff] at hyx
        rw [hit_le_iff]
        omega
      · exact h.1 z hz
    · rename_i hyx
      have hxy : hit_le x y := by simpa [hit_le] using hyx
      rw [List.pairwise_cons]
      refine ⟨?_, List.pairwise_cons.2 h⟩
      intro z hz
      rcases List.mem_cons.1 hz with rfl | hz
      · exact hxy
      · have := h.1 z hz
        rw [hit_le_iff] at this hxy ⊢
        omega

theorem sort_hits_sorted (l : List SearchHit) : (sort_hits l).Pairwise hit_le := by
  induction l with
  | nil => simp [sort_hits]
  | cons x xs ih =>
    unfold sort_hits
    exact sort_insert_sorted x _ ih

/-- A list of hits has at most one arrangement that `hit_le` accepts: whatever
algorithm `std::sort` runs, and in whatever order the hits were pushed, the
sorted vector is the same. -/
theorem sorted_hits_unique (l1 l2 : List SearchHit) (hp : l1.Perm l2)
    (h1 : l1.Pairwise hit_le) (h2 : l2.Pairwise hit_le) : l1 = l2 := by
  haveI : IsAntisymm SearchHit hit_le := by
    constructor
    intro a b hab hba
    rw [hit_le_iff] at hab hba
    cases a
    cases b
    simp only [SearchHit.mk.injEq] at hab hba ⊢
    omega
  exact List.eq_of_perm_of_sorted hp h1 h2

/-! ## Lemmas on `search` -/

theorem hit_ids_rank_hits (index : List (List Nat × TokenInfo)) (ids : List Nat)
    (terms : List (List Nat)) : (hit_ids (rank_hits index ids terms)).Perm ids := by
  unfold hit_ids rank_hits
  refine ((sort_hits_perm _).map SearchHit.doc_id).trans ?_
  rw [List.map_map]
  have : (SearchHit.doc_id ∘ fun id =>
      ({ doc_id := id
         score := score_at (score_terms index ids terms []) id } : SearchHit)) = id := rfl
  rw [this, List.map_id]

theorem hit_ids_search_perm (s : InvertedIndex) (query : List Nat) :
    (hit_ids (search s query)).Perm (final_set s.index_ query) := by
  unfold search search_iter
  split
  · rename_i h
    rw [h]
    exact List.Perm.refl _
  · exact hit_ids_rank_hits _ _ _

theorem mem_hit_ids_search (s : InvertedIndex) (query : List Nat) (d : Nat) :
    d ∈ hit_ids (search s query) ↔ query_matches s.index_ query d := by
  rw [(hit_ids_search_perm s query).mem_iff, mem_final_set]

theorem search_eq_nil_of_no_match (s : InvertedIndex) (query : List Nat)
    (h : ∀ d, ¬ query_matches s.index_ query d) : search s query = [] := by
  have hf : final_set s.index_ query = [] := by
    rw [List.eq_nil_iff_forall_not_mem]
    intro d hd
    exact h d ((mem_final_set _ _ _).1 hd)
  unfold search search_iter
  rw [if_pos hf]

/-! ## Lemmas on `split` -/

theorem split_no_delim (a : List Nat) (delim : Nat) (h : delim ∉ a) (hne : a ≠ []) :
    split a delim = [a] := by
  induction a with
  | nil => exact absurd rfl hne
  | cons c a ih =>
    have hc : c ≠ delim := fun e => h (e ▸ List.mem_cons_self _ _)
    have ha : delim ∉ a := fun e => h (List.mem_cons_of_mem _ e)
    unfold split
    rw [if_neg hc]
    cases a with
    | nil => simp [split]
    | cons c2 a2 => rw [ih ha (List.cons_ne_nil _ _)]

theorem split_append_delim (a b : List Nat) (delim : Nat) (h : delim ∉ a) :
    split (a ++ delim :: b) delim = a :: split b delim := by
  induction a with
  | nil => simp [split]
  | cons c a ih =>
    have hc : c ≠ delim := fun e => h (e ▸ List.mem_cons_self _ _)
    have ha : delim ∉ a := fun e => h (List.mem_cons_of_mem _ e)
    rw [List.cons_append, split, if_neg hc, ih ha]

theorem not_group_matches_nil (index : List (List Nat × TokenInfo)) (d : Nat) :
    ¬ group_matches index [] d := by
  rintro ⟨⟨t, ht, _⟩, _⟩
  simp [split] at ht

/-- A query without `|` is its own single group. -/
theorem query_matches_single_group (index : List (List Nat × TokenInfo)) (q : List Nat)
    (d : Nat) (h : 124 ∉ q) : query_matches index q d ↔ group_matches index q d := by
  unfold query_matches
  by_cases hq : q = []
  · subst hq
    simp [split, not_group_matches_nil]
  · rw [split_no_delim q 124 h hq]
    simp

/-- The groups of `a|b` are `a` and the groups of `b`. -/
theorem query_matches_or (index : List (List Nat × TokenInfo)) (a b : List Nat)
    (d : Nat) (h : 124 ∉ a) :
    query_matches index (a ++ 124 :: b) d ↔
      group_matches index a d ∨ query_matches index b d := by
  unfold query_matches
  rw [split_append_delim a b 124 h]
  simp

/-- A term of a group that is non-empty after trimming must match. -/
theorem group_matches_term (index : List (List Nat × TokenInfo)) (g t : List Nat)
    (d : Nat) (hg : group_matches index g d) (ht : t ∈ split g 38) (hne : trim t ≠ []) :
    d ∈ posting_ids index (normalize_term (trim t)) :=
  hg.2 t ht hne

theorem ne_nil_of_trim_ne_nil (a : List Nat) (h : trim a ≠ []) : a ≠ [] := by
  rintro rfl
  exact h (by simp [trim])

/-! ## Lemmas on scoring -/

theorem map_find_modify {κ ν : Type} [DecidableEq κ] (dflt : ν) (f : ν → ν)
    (m : List (κ × ν)) (k k2 : κ) :
    map_find (map_modify dflt f m k) k2 =
      if k = k2 then some (f ((map_find m k).getD dflt)) else map_find m k2 := by
  induction m with
  | nil =>
    simp only [map_modify, map_find]
    split <;> simp
  | cons e m ih =>
    obtain ⟨k1, v⟩ := e
    unfold map_modify
    by_cases h1 : k1 = k
    · subst h1
      rw [if_pos rfl]
      by_cases h2 : k1 = k2
      · simp [map_find, h2]
      · simp [map_find, h2]
    · rw [if_neg h1]
      by_cases h2 : k = k2
      · subst h2
        simp only [map_find, if_neg h1, ih, if_true]
      · simp only [map_find, ih, if_neg h2]

theorem score_at_modify (f : Nat → Nat) (scores : List (Nat × Nat)) (k d : Nat) :
    score_at (map_modify 0 f scores k) d =
      if k = d then f (score_at scores k) else score_at scores d := by
  unfold score_at
  rw [map_find_modify]
  split <;> rfl

theorem u64_add_left (a b : Nat) : u64 (u64 a + b) = u64 (a + b) := by
  unfold u64
  omega

theorem posting_weight_cons (p : Posting) (ps : List Posting) (d : Nat) :
    posting_weight (p :: ps) d =
      (if p.doc_id = d then p.tf else 0) + posting_weight ps d := by
  unfold posting_weight
  by_cases h : p.doc_id = d
  · simp [List.filter_cons, h]
  · simp [List.filter_cons, h]

theorem score_at_score_postings (fs : List Nat) (ps : List Posting)
    (scores : List (Nat × Nat)) (d a : Nat) (h : score_at scores d = u64 a) :
    score_at (score_postings fs ps scores) d =
      u64 (a + if d ∈ fs then posting_weight ps d else 0) := by
  induction ps generalizing scores a with
  | nil =>
    simp only [score_postings, posting_weight, List.filter_nil, List.map_nil, List.sum_nil,
      ite_self, Nat.add_zero]
    exact h
  | cons p ps ih =>
    unfold score_postings
    rw [posting_weight_cons]
    by_cases hp : p.doc_id ∈ fs
    · rw [if_pos hp]
      by_cases hd : p.doc_id = d
      · subst hd
        have h2 : score_at (map_modify 0 (fun v => u64 (v + p.tf)) scores p.doc_id) p.doc_id
            = u64 (a + p.tf) := by
          rw [score_at_modify, if_pos rfl, h, u64_add_left]
        rw [ih _ _ h2, if_pos hp, if_pos rfl, if_pos hp, Nat.add_assoc]
      · have h2 : score_at (map_modify 0 (fun v => u64 (v + p.tf)) scores p.doc_id) d
            = u64 a := by
          rw [score_at_modify, if_neg hd, h]
        rw [ih _ _ h2, if_neg hd, Nat.zero_add]
    · rw [if_neg hp, ih _ _ h]
      by_cases hd : p.doc_id = d
      · subst hd
        rw [if_neg hp, if_neg hp]
      · rw [if_neg hd, Nat.zero_add]

theorem score_at_score_terms (index : List (List Nat × TokenInfo)) (fs : List Nat)
    (terms : List (List Nat)) (scores : List (Nat × Nat)) (d a : Nat)
    (h : score_at scores d = u64 a) :
    score_at (score_terms index fs terms scores) d =
      u64 (a + if d ∈ fs then (terms.map (term_weight index d)).sum else 0) := by
  induction terms generalizing scores a with
  | nil =>
    simp only [score_terms, List.map_nil, List.sum_nil, ite_self, Nat.add_zero]
    exact h
  | cons t rest ih =>
    unfold score_terms
    cases hf : map_find index t with
    | none =>
      simp only
      rw [ih _ _ h]
      simp [term_weight, hf]
    | some info =>
      simp only
      rw [ih _ _ (score_at_score_postings fs info.postings scores d a h)]
      by_cases hd : d ∈ fs
      · simp only [if_pos hd, List.map_cons, List.sum_cons, term_weight, hf, Nat.add_assoc]
      · simp only [if_neg hd, Nat.add_zero]

theorem query_weight_eq (index : List (List Nat × TokenInfo)) (ts : List (List Nat))
    (d : Nat) : query_weight index ts d = (ts.map (term_weight index d)).sum := by
  unfold query_weight
  induction ts with
  | nil => rfl
  | cons t ts ih =>
    cases hf : map_find index t with
    | none => simp [List.filter_cons, hf, ih, term_weight]
    | some info => simp [List.filter_cons, hf, ih]

theorem query_weight_perm (index : List (List Nat × TokenInfo)) (ts1 ts2 : List (List Nat))
    (d : Nat) (h : ts1.Perm ts2) : query_weight index ts1 d = query_weight index ts2 d := by
  rw [query_weight_eq, query_weight_eq]
  exact (h.map _).sum_eq

/-- The score `rank_hits` gives to each document it ranks. -/
theorem mem_rank_hits (index : List (List Nat × TokenInfo)) (ids : List Nat)
    (terms : List (List Nat)) (h : SearchHit) (hh : h ∈ rank_hits index ids terms) :
    h.doc_id ∈ ids ∧ h.score = u64 (query_weight index terms h.doc_id) := by
  unfold rank_hits at hh
  rw [(sort_hits_perm _).mem_iff, List.mem_map] at hh
  obtain ⟨id, hid, rfl⟩ := hh
  refine ⟨hid, ?_⟩
  simp only
  rw [score_at_score_terms index ids terms [] id 0 (by simp [score_at, map_find, u64]),
    if_pos hid, Nat.zero_add, query_weight_eq]

theorem rank_hits_eq_map (index : List (List Nat × TokenInfo)) (ids : List Nat)
    (terms : List (List Nat)) :
    rank_hits index ids terms =
      sort_hits (ids.map (fun id =>
        { doc_id := id, score := u64 (query_weight index terms id) })) := by
  unfold rank_hits
  simp only
  congr 1
  apply List.map_congr_left
  intro id hid
  rw [score_at_score_terms index ids terms [] id 0 (by simp [score_at, map_find, u64]),
    if_pos hid, Nat.zero_add, query_weight_eq]

/-- The result does not depend on the order in which the two hash sets are
iterated. -/
theorem search_iter_perm (s : InvertedIndex) (ids1 ids2 : List Nat)
    (terms1 terms2 : List (List Nat)) (hi : ids1.Perm ids2) (ht : terms1.Perm terms2) :
    search_iter s ids1 terms1 = search_iter s ids2 terms2 := by
  unfold search_iter
  by_cases h : ids1 = []
  · have h2 : ids2 = [] := by
      subst h
      exact hi.nil_eq.symm
    rw [if_pos h, if_pos h2]
  · have h2 : ids2 ≠ [] := fun e => h (by subst e; exact hi.eq_nil)
    rw [if_neg h, if_neg h2, rank_hits_eq_map, rank_hits_eq_map]
    apply sorted_hits_unique _ _ _ (sort_hits_sorted _) (sort_hits_sorted _)
    refine (sort_hits_perm _).trans (List.Perm.trans ?_ (sort_hits_perm _).symm)
    have hfun : (fun id => ({ doc_id := id
                              score := u64 (query_weight s.index_ terms1 id) } : SearchHit))
        = (fun id => { doc_id := id, score := u64 (query_weight s.index_ terms2 id) }) := by
      funext id
      rw [query_weight_perm _ _ _ id ht]
    rw [hfun]
    exact hi.map _

/-! ## Lemmas on `add_document` -/

theorem mem_map_modify {κ ν : Type} [DecidableEq κ] (dflt : ν) (f : ν → ν)
    (m : List (κ × ν)) (k : κ) (e : κ × ν) (he : e ∈ map_modify dflt f m k) :
    e ∈ m ∨ (e.1 = k ∧ (e.2 = f dflt ∨ ∃ v, (k, v) ∈ m ∧ e.2 = f v)) := by
  induction m with
  | nil =>
    simp only [map_modify, List.mem_singleton] at he
    subst he
    exact Or.inr ⟨rfl, Or.inl rfl⟩
  | cons e1 m ih =>
    obtain ⟨k1, v1⟩ := e1
    unfold map_modify at he
    by_cases h1 : k1 = k
    · subst h1
      rw [if_pos rfl, List.mem_cons] at he
      rcases he with rfl | he
      · exact Or.inr ⟨rfl, Or.inr ⟨v1, List.mem_cons_self _ _, rfl⟩⟩
      · exact Or.inl (List.mem_cons_of_mem _ he)
    · rw [if_neg h1, List.mem_cons] at he
      rcases he with rfl | he
      · exact Or.inl (List.mem_cons_self _ _)
      · rcases ih he with h | ⟨hk, h | ⟨v, hv, h⟩⟩
        · exact Or.inl (List.mem_cons_of_mem _ h)
        · exact Or.inr ⟨hk, Or.inl h⟩
        · exact Or.inr ⟨hk, Or.inr ⟨v, List.mem_cons_of_mem _ hv, h⟩⟩

theorem map_find_some_mem {κ ν : Type} [DecidableEq κ] (m : List (κ × ν)) (k : κ) (v : ν)
    (h : map_find m k = some v) : (k, v) ∈ m := by
  induction m with
  | nil => simp [map_find] at h
  | cons e m ih =>
    obtain ⟨k1, v1⟩ := e
    unfold map_find at h
    by_cases h1 : k1 = k
    · rw [if_pos h1] at h
      cases h
      subst h1
      exact List.mem_cons_self _ _
    · rw [if_neg h1] at h
      exact List.mem_cons_of_mem _ (ih h)

/-- A property of `TokenInfo` that holds of the fresh entry and is kept by
`add_posting` holds of the whole index after the loop of `add_document`. -/
theorem index_entries_forall (P : TokenInfo → Prop) (doc_id : Nat)
    (h0 : P {}) (hstep : ∀ freq info, P info → P (add_posting doc_id freq info))
    (entries : List (List Nat × Nat)) (index : List (List Nat × TokenInfo))
    (h : ∀ e ∈ index, P e.2) :
    ∀ e ∈ index_entries doc_id index entries, P e.2 := by
  induction entries generalizing index with
  | nil => simpa [index_entries] using h
  | cons kv rest ih =>
    obtain ⟨tok, freq⟩ := kv
    unfold index_entries
    apply ih
    intro e he
    rcases mem_map_modify _ _ _ _ e he with h1 | ⟨_, h1 | ⟨v, hv, h1⟩⟩
    · exact h e h1
    · rw [h1]
      exact hstep freq _ h0
    · rw [h1]
      exact hstep freq v (h _ hv)

theorem u32_add_left (a b : Nat) : u32 (u32 a + b) = u32 (a + b) := by
  unfold u32
  omega

theorem counts_ok_add_posting (doc_id freq : Nat) (info : TokenInfo) (h : counts_ok info) :
    counts_ok (add_posting doc_id freq info) := by
  unfold counts_ok add_posting at *
  simp only [List.length_append, List.length_singleton, List.map_append, List.map_cons,
    List.map_nil, List.sum_append, List.sum_cons, List.sum_nil, Nat.add_zero]
  rw [h.1, h.2, u32_add_left, u64_add_left]
  exact ⟨rfl, rfl⟩

theorem counts_ok_reachable (s : InvertedIndex) (h : Reachable s) :
    ∀ e ∈ s.index_, counts_ok e.2 := by
  induction h with
  | empty => intro e he; simp at he
  | add s doc order _ _ ih =>
    exact index_entries_forall counts_ok doc.id (by simp [counts_ok, u32, u64])
      (fun freq info => counts_ok_add_posting doc.id freq info) order s.index_ ih

theorem reachable_of_built (docs : List Document) (s : InvertedIndex) (h : Built docs s) :
    Reachable s := by
  induction h with
  | empty => exact Reachable.empty
  | add docs s doc order _ hp ih => exact Reachable.add s doc order ih hp

theorem postings_stored_reachable (s : InvertedIndex) (h : Reachable s) :
    ∀ e ∈ s.index_, ∀ p ∈ e.2.postings, ∃ doc ∈ s.docs_, doc.id = p.doc_id := by
  induction h with
  | empty => intro e he; simp at he
  | add s doc order _ _ ih =>
    apply index_entries_forall
      (fun info => ∀ p ∈ info.postings,
        ∃ d ∈ (add_document_iter s doc order).docs_, d.id = p.doc_id) doc.id
    · intro p hp
      simp at hp
    · intro freq info hinfo p hp
      simp only [add_posting, List.mem_append, List.mem_singleton] at hp
      rcases hp with hp | rfl
      · exact hinfo p hp
      · exact ⟨{ doc with text := [] }, by simp [add_document_iter], rfl⟩
    · intro e he p hp
      obtain ⟨d, hd, hid⟩ := ih e he p hp
      exact ⟨d, by simp [add_document_iter, hd], hid⟩

theorem mem_posting_ids (index : List (List Nat × TokenInfo)) (t : List Nat) (d : Nat)
    (h : d ∈ posting_ids index t) :
    ∃ info, (t, info) ∈ index ∧ ∃ p ∈ info.postings, p.doc_id = d := by
  unfold posting_ids at h
  cases hf : map_find index t with
  | none => simp [hf] at h
  | some info =>
    simp only [hf, List.mem_map] at h
    exact ⟨info, map_find_some_mem _ _ _ hf, h⟩

theorem posting_ids_modify (index : List (List Nat × TokenInfo)) (doc_id freq : Nat)
    (k t : List Nat) :
    posting_ids (map_modify {} (add_posting doc_id freq) index k) t =
      if k = t then posting_ids index k ++ [doc_id] else posting_ids index t := by
  unfold posting_ids
  rw [map_find_modify]
  by_cases h : k = t
  · subst h
    simp only [if_true]
    cases map_find index k <;> simp [add_posting]
  · simp only [if_neg h]

theorem mem_posting_ids_index_entries (doc_id : Nat) (entries : List (List Nat × Nat))
    (index : List (List Nat × TokenInfo)) (t : List Nat) (x : Nat) :
    x ∈ posting_ids (index_entries doc_id index entries) t ↔
      x ∈ posting_ids index t ∨ (x = doc_id ∧ ∃ e ∈ entries, normalize_term e.1 = t) := by
  induction entries generalizing index with
  | nil => simp [index_entries]
  | cons kv rest ih =>
    obtain ⟨tok, freq⟩ := kv
    unfold index_entries
    rw [ih, posting_ids_modify]
    simp only [List.mem_cons, exists_eq_or_imp]
    by_cases h : normalize_term tok = t
    · subst h
      simp only [if_true, List.mem_append, List.mem_singleton, true_or, and_true]
      tauto
    · simp only [if_neg h]
      tauto

/-! ## Lemmas on the tokenizer -/

theorem token_char_props (c : Nat) (h : is_token_char c = true) :
    c ≠ 124 ∧ c ≠ 38 ∧ isspace c = false ∧ to_lower_ascii c = c := by
  unfold is_token_char at h
  have hc : (97 ≤ c ∧ c ≤ 122) ∨ (48 ≤ c ∧ c ≤ 57) ∨ c = 45 ∨ 128 ≤ c := by
    by_cases h1 : (97 ≤ c ∧ c ≤ 122) ∨ (48 ≤ c ∧ c ≤ 57) ∨ c = 45
    · omega
    · rw [if_neg h1] at h
      by_cases h2 : 128 ≤ c
      · omega
      · rw [if_neg h2] at h
        exact absurd h (by decide)
  refine ⟨by omega, by omega, ?_, ?_⟩
  · unfold isspace
    simp only [Bool.or_eq_false_iff, beq_eq_false_iff_ne, ne_eq, Bool.and_eq_false_iff,
      decide_eq_false_iff_not]
    omega
  · unfold to_lower_ascii tolower
    rw [if_neg (by omega), if_neg (by omega)]

/-- What `tokenize_document` maintains: the pending token is made of token
bytes, and so is every key of `freqs`, none of which is empty. -/
theorem flush_clean (st : TokenizerState)
    (ht : ∀ c ∈ st.token, is_token_char c = true)
    (hf : ∀ e ∈ st.freqs, clean_token e.1) :
    (∀ c ∈ (flush st).token, is_token_char c = true) ∧
      ∀ e ∈ (flush st).freqs, clean_token e.1 := by
  unfold flush
  by_cases h1 : st.token = []
  · rw [if_pos h1]
    exact ⟨ht, hf⟩
  · rw [if_neg h1]
    by_cases h2 : st.token ∉ Stopwords
    · rw [if_pos h2]
      refine ⟨by simp, ?_⟩
      intro e he
      rcases mem_map_modify _ _ _ _ e he with h | ⟨hk, _⟩
      · exact hf e h
      · rw [hk]
        exact ⟨h1, ht⟩
    · rw [if_neg h2]
      exact ⟨by simp, hf⟩

theorem tokenize_loop_clean (cs : List Nat) (st : TokenizerState)
    (ht : ∀ c ∈ st.token, is_token_char c = true)
    (hf : ∀ e ∈ st.freqs, clean_token e.1) :
    (∀ c ∈ (tokenize_loop cs st).token, is_token_char c = true) ∧
      ∀ e ∈ (tokenize_loop cs st).freqs, clean_token e.1 := by
  induction cs generalizing st with
  | nil => exact ⟨ht, hf⟩
  | cons c cs ih =>
    unfold tokenize_loop
    by_cases hc : is_token_char c = true
    · rw [if_pos hc]
      apply ih
      · intro x hx
        simp only [List.mem_append, List.mem_singleton] at hx
        rcases hx with hx | rfl
        · exact ht x hx
        · rw [(token_char_props c hc).2.2.2]
          exact hc
      · exact hf
    · rw [if_neg hc]
      exact ih _ (flush_clean st ht hf).1 (flush_clean st ht hf).2

theorem flush_indep (st1 st2 : TokenizerState) (ht : st1.token = st2.token)
    (hf : st1.freqs = st2.freqs) :
    (flush st1).token = (flush st2).token ∧ (flush st1).freqs = (flush st2).freqs := by
  unfold flush
  rw [← ht, ← hf]
  by_cases h1 : st1.token = []
  · rw [if_pos h1, if_pos h1]
    exact ⟨ht, hf⟩
  · rw [if_neg h1, if_neg h1]
    by_cases h2 : st1.token ∉ Stopwords
    · rw [if_pos h2, if_pos h2]
      exact ⟨rfl, rfl⟩
    · rw [if_neg h2, if_neg h2]
      exact ⟨rfl, rfl⟩

theorem tokenize_loop_indep (cs : List Nat) (st1 st2 : TokenizerState)
    (ht : st1.token = st2.token) (hf : st1.freqs = st2.freqs) :
    (tokenize_loop cs st1).token = (tokenize_loop cs st2).token ∧
      (tokenize_loop cs st1).freqs = (tokenize_loop cs st2).freqs := by
  induction cs generalizing st1 st2 with
  | nil => exact ⟨ht, hf⟩
  | cons c cs ih =>
    unfold tokenize_loop
    by_cases hc : is_token_char c = true
    · rw [if_pos hc, if_pos hc]
      exact ih _ _ (by simp [ht]) hf
    · rw [if_neg hc, if_neg hc]
      exact ih _ _ (flush_indep st1 st2 ht hf).1 (flush_indep st1 st2 ht hf).2

/-- The frequency map of a document does not depend on the statistics the
call starts from. -/
theorem tokenize_document_freqs (doc : Document) (stats : TokenizationStats) :
    (tokenize_document doc [] stats).1 = (tokenize_document doc [] {}).1 := by
  unfold tokenize_document
  simp only
  refine (flush_indep _ _ ?_ ?_).2
  · refine (tokenize_loop_indep _ _ _ ?_ ?_).1 <;> rfl
  · refine (tokenize_loop_indep _ _ _ ?_ ?_).2 <;> rfl

theorem retained_tokens_clean (doc : Document) (w : List Nat)
    (h : w ∈ retained_tokens doc) : clean_token w := by
  unfold retained_tokens at h
  rw [List.mem_map] at h
  obtain ⟨e, he, rfl⟩ := h
  unfold tokenize_document at he
  simp only at he
  have h1 := tokenize_loop_clean (strip_tags doc.text)
    { token := [], freqs := []
      stats := { ({} : TokenizationStats) with
                 docs := u64 (({} : TokenizationStats).docs + 1)
                 bytes_in := u64 (({} : TokenizationStats).bytes_in
                   + (strip_tags doc.text).length) } }
    (by simp) (by simp)
  exact (flush_clean _ h1.1 h1.2).2 e he

theorem dropWhile_eq_self (p : Nat → Bool) (l : List Nat) (h : ∀ c ∈ l, p c = false) :
    l.dropWhile p = l := by
  cases l with
  | nil => rfl
  | cons c cs => simp [List.dropWhile, h c (List.mem_cons_self _ _)]

theorem trim_eq_self (w : List Nat) (h : ∀ c ∈ w, isspace c = false) : trim w = w := by
  unfold trim
  rw [dropWhile_eq_self isspace w h,
    dropWhile_eq_self isspace w.reverse (fun c hc => h c (List.mem_reverse.1 hc)),
    List.reverse_reverse]

/-- A token, given as a query, is a single group of a single term: itself. -/
theorem query_matches_clean_token (index : List (List Nat × TokenInfo)) (w : List Nat)
    (d : Nat) (hw : clean_token w) (h : d ∈ posting_ids index (normalize_term w)) :
    query_matches index w d := by
  have h124 : 124 ∉ w := fun hc => (token_char_props 124 (hw.2 124 hc)).1 rfl
  have h38 : 38 ∉ w := fun hc => (token_char_props 38 (hw.2 38 hc)).2.1 rfl
  have htrim : trim w = w := trim_eq_self w (fun c hc => (token_char_props c (hw.2 c hc)).2.2.1)
  rw [query_matches_single_group index w d h124]
  unfold group_matches
  rw [split_no_delim w 38 h38 hw.1]
  simp only [List.mem_singleton, exists_eq_left, forall_eq, htrim]
  exact ⟨hw.1, fun _ => h⟩

theorem built_findable (docs : List Document) (s : InvertedIndex) (h : Built docs s) :
    ∀ d ∈ docs, ∀ w ∈ retained_tokens d,
      d.id ∈ posting_ids s.index_ (normalize_term w) := by
  induction h with
  | empty => intro d hd; simp at hd
  | add docs s doc order _ hp ih =>
    intro d hd w hw
    simp only [add_document_iter]
    rw [mem_posting_ids_index_entries]
    rw [List.mem_append, List.mem_singleton] at hd
    rcases hd with hd | rfl
    · exact Or.inl (ih d hd w hw)
    · right
      refine ⟨rfl, ?_⟩
      unfold retained_tokens at hw
      rw [← tokenize_document_freqs d s.stats_, List.mem_map] at hw
      obtain ⟨e, he, rfl⟩ := hw
      exact ⟨e, hp.mem_iff.2 he, rfl⟩

/-! ## The scenario corpus, evaluated -/

theorem corpus_eq :
    corpus =
      { index_ :=
          [ (bytes "кошка", { cf := 1, df := 1, postings := [⟨1, 1⟩] }),
            (bytes "собака", { cf := 2, df := 2, postings := [⟨1, 1⟩, ⟨2, 1⟩] }),
            (bytes "бежит", { cf := 1, df := 1, postings := [⟨2, 1⟩] }) ]
        docs_ := [{ id := 1 }, { id := 2 }]
        stats_ := { docs := 2, tokens := 4, token_chars := 44, bytes_in := 49 } } := by
  decide!

/-! ## Lemmas on the result of `search` -/

theorem mem_query_terms (query t : List Nat) :
    t ∈ query_terms query ↔
      ∃ g ∈ split query 124, ∃ r ∈ split g 38, trim r ≠ [] ∧ normalize_term (trim r) = t := by
  unfold query_terms
  simp only [List.mem_flatMap, List.mem_map, List.mem_filter, decide_eq_true_eq]
  constructor
  · rintro ⟨g, hg, u, ⟨⟨r, hr, rfl⟩, hne⟩, rfl⟩
    exact ⟨g, hg, r, hr, hne, rfl⟩
  · rintro ⟨g, hg, r, hr, hne, rfl⟩
    exact ⟨g, hg, trim r, ⟨⟨r, hr, rfl⟩, hne⟩, rfl⟩

theorem mem_unique_terms (query t : List Nat) :
    t ∈ unique_terms query ↔ t ∈ query_terms query := by
  unfold unique_terms
  rw [mem_set_insert_all, mem_query_terms]
  simp only [List.not_mem_nil, false_or, List.mem_flatMap, mem_group_terms]

theorem nodup_unique_terms (query : List Nat) : (unique_terms query).Nodup :=
  nodup_set_insert_all _ _ List.nodup_nil

theorem unique_terms_perm (query : List Nat) (ts : List (List Nat)) (hts : ts.Nodup)
    (hsub : ∀ t ∈ ts, t ∈ query_terms query) (hsup : ∀ t ∈ query_terms query, t ∈ ts) :
    ts.Perm (unique_terms query) := by
  rw [List.perm_ext_iff_of_nodup hts (nodup_unique_terms query)]
  intro t
  rw [mem_unique_terms]
  exact ⟨hsub t, hsup t⟩

theorem search_hit_score (s : InvertedIndex) (query : List Nat) (h : SearchHit)
    (hh : h ∈ search s query) :
    h.score = u64 (query_weight s.index_ (unique_terms query) h.doc_id) := by
  unfold search search_iter at hh
  by_cases he : final_set s.index_ query = []
  · rw [if_pos he] at hh
    exact absurd hh (List.not_mem_nil _)
  · rw [if_neg he] at hh
    exact (mem_rank_hits _ _ _ h hh).2

theorem search_sorted (s : InvertedIndex) (query : List Nat) :
    (search s query).Pairwise hit_le := by
  unfold search search_iter
  split
  · exact List.Pairwise.nil
  · exact sort_hits_sorted _

theorem nodup_hit_ids_search (s : InvertedIndex) (query : List Nat) :
    (hit_ids (search s query)).Nodup :=
  (hit_ids_search_perm s query).nodup_iff.2 (nodup_final_set _ _)

theorem and_of_disjoint_terms (s : InvertedIndex) (a b : List Nat)
    (ha38 : 38 ∉ a) (ha124 : 124 ∉ a) (hb38 : 38 ∉ b) (hb124 : 124 ∉ b)
    (hna : trim a ≠ []) (hnb : trim b ≠ [])
    (hdis : ∀ d ∈ posting_ids s.index_ (normalize_term (trim a)),
      d ∉ posting_ids s.index_ (normalize_term (trim b))) :
    search s (a ++ 38 :: b) = [] := by
  apply search_eq_nil_of_no_match
  intro d hm
  have h124 : 124 ∉ a ++ 38 :: b := by
    simp only [List.mem_append, List.mem_cons, not_or]
    exact ⟨ha124, by decide, hb124⟩
  rw [query_matches_single_group _ _ _ h124] at hm
  have hs : split (a ++ 38 :: b) 38 = [a, b] := by
    rw [split_append_delim a b 38 ha38, split_no_delim b 38 hb38 (ne_nil_of_trim_ne_nil b hnb)]
  have h1 := group_matches_term _ _ a d hm (by rw [hs]; simp) hna
  have h2 := group_matches_term _ _ b d hm (by rw [hs]; simp) hnb
  exact hdis d h1 h2

/-! ## The claims on `search` -/

/-- C1: the set of doc ids returned by `search` is the union, over the
`|`-separated groups having a term that is non-empty after trimming, of the
intersection over the group's non-empty terms `t` of the doc ids in the
posting list of `normalize_term (trim t)` (`posting_ids` is empty for a term
that is not in the index).  In particular the AND of two terms whose posting
lists share no document returns no hits, as does Scenario 2. -/
theorem search_ids_union_of_intersections (s : InvertedIndex) (query : List Nat) :
    (∀ d, d ∈ hit_ids (search s query) ↔
      ∃ g ∈ split query 124,
        (∃ t ∈ split g 38, trim t ≠ []) ∧
          ∀ t ∈ split g 38, trim t ≠ [] →
            d ∈ posting_ids s.index_ (normalize_term (trim t))) ∧
    (∀ a b : List Nat, 38 ∉ a → 124 ∉ a → 38 ∉ b → 124 ∉ b → trim a ≠ [] → trim b ≠ [] →
      (∀ d ∈ posting_ids s.index_ (normalize_term (trim a)),
        d ∉ posting_ids s.index_ (normalize_term (trim b))) →
      search s (a ++ [38] ++ b) = []) ∧
    search corpus (bytes "кошка&бежит") = [] := by
  refine ⟨fun d => mem_hit_ids_search s query d, ?_, by rw [corpus_eq]; decide!⟩
  intro a b ha38 ha124 hb38 hb124 hna hnb hdis
  rw [List.append_assoc, List.singleton_append]
  exact and_of_disjoint_terms s a b ha38 ha124 hb38 hb124 hna hnb hdis

/-- Witness of C1 on the scenario corpus: the two terms of Scenario 2 have
disjoint posting lists, hence their AND has no hit. -/
theorem search_ids_union_of_intersections_witness :
    (∀ d ∈ posting_ids corpus.index_ (normalize_term (trim (bytes "кошка"))),
      d ∉ posting_ids corpus.index_ (normalize_term (trim (bytes "бежит")))) ∧
    search corpus (bytes "кошка" ++ [38] ++ bytes "бежит") = [] :=
  ⟨by rw [corpus_eq]; decide!,
   (search_ids_union_of_intersections corpus []).2.1 (bytes "кошка") (bytes "бежит")
     (by decide) (by decide) (by decide) (by decide) (by decide) (by decide) (by rw [corpus_eq]; decide!)⟩

/-- C2: the score of a hit for document `d` is the sum, over the set `ts` of
the distinct normalised non-empty terms of the query (of every group) that are
keys of the index, of the `term_frequency` of the postings of the term for
`d`.  The sum is accumulated in a `uint64_t`: the score is the sum reduced
modulo `2^64`, that is the sum itself whenever it fits.  On the corpus of
Scenario 1 the query `собака` returns documents 1 and 2 with score 1. -/
theorem search_score_is_sum (s : InvertedIndex) (query : List Nat) (ts : List (List Nat))
    (h : SearchHit) (hts : ts.Nodup) (hsub : ∀ t ∈ ts, t ∈ query_terms query)
    (hsup : ∀ t ∈ query_terms query, t ∈ ts) (hh : h ∈ search s query) :
    h.score = u64 (query_weight s.index_ ts h.doc_id) ∧
    (query_weight s.index_ ts h.doc_id < 2 ^ 64 →
      h.score = query_weight s.index_ ts h.doc_id) ∧
    search corpus (bytes "собака") = [⟨1, 1⟩, ⟨2, 1⟩] := by
  have hs : h.score = u64 (query_weight s.index_ ts h.doc_id) := by
    rw [search_hit_score s query h hh]
    rw [query_weight_perm _ _ _ _ (unique_terms_perm query ts hts hsub hsup)]
  refine ⟨hs, ?_, by rw [corpus_eq]; decide!⟩
  intro hlt
  rw [hs]
  exact Nat.mod_eq_of_lt hlt

/-- Witness of C2: the hit of document 1 for the two-term query
`кошка | собака` on the scenario corpus has score 2. -/
theorem search_score_is_sum_witness :
    (⟨1, 2⟩ : SearchHit) ∈ search corpus (bytes "кошка | собака") ∧
    (2 : Nat) = query_weight corpus.index_ [bytes "собака", bytes "кошка"] 1 :=
  ⟨by rw [corpus_eq]; decide!,
   (search_score_is_sum corpus (bytes "кошка | собака") [bytes "собака", bytes "кошка"]
     ⟨1, 2⟩ (by decide) (by decide!) (by decide!) (by rw [corpus_eq]; decide!)).2.1
     (by rw [corpus_eq]; decide!)⟩

/-- C3: the hit list has no doc id twice and is strictly ordered: of two
adjacent hits the first has the greater score, or the same score and the
smaller doc id.  The list does not depend on the order in which `final_set`
and `unique_terms` are iterated, and it is the only arrangement of its hits
that `std::sort` may return (no later hit is less than an earlier one). -/
theorem search_hits_strictly_ordered (s : InvertedIndex) (query : List Nat) :
    (hit_ids (search s query)).Nodup ∧
    (search s query).Chain'
      (fun h h2 => h.score > h2.score ∨ (h.score = h2.score ∧ h.doc_id < h2.doc_id)) ∧
    (∀ ids terms, ids.Perm (final_set s.index_ query) → terms.Perm (unique_terms query) →
      search_iter s ids terms = search s query) ∧
    (∀ l : List SearchHit, l.Perm (search s query) →
      l.Pairwise (fun a b => ¬ hit_less b a = true) → l = search s query) := by
  refine ⟨nodup_hit_ids_search s query, ?_, ?_, ?_⟩
  · apply List.Pairwise.chain'
    have hn : (search s query).Pairwise (fun a b => a.doc_id ≠ b.doc_id) :=
      List.pairwise_map.1 (nodup_hit_ids_search s query)
    refine ((search_sorted s query).and hn).imp ?_
    intro a b hab
    have h1 := (hit_le_iff a b).1 hab.1
    have h2 := hab.2
    omega
  · intro ids terms hi ht
    exact search_iter_perm s _ _ _ _ hi ht
  · intro l hp hl
    apply sorted_hits_unique l _ hp _ (search_sorted s query)
    refine hl.imp ?_
    intro a b hab
    simpa [hit_le] using hab

/-- Witness of C3: on the scenario corpus, enumerating `final_set` in the
opposite order gives the same hit list. -/
theorem search_hits_strictly_ordered_witness :
    search_iter corpus [2, 1] [bytes "собака"] = search corpus (bytes "собака") :=
  (search_hits_strictly_ordered corpus (bytes "собака")).2.2.1 [2, 1] [bytes "собака"]
    (by rw [corpus_eq]; decide!) (by decide!)

/-! ## The claims on the reachable states -/

theorem built_corpus : Built [doc1, doc2] corpus :=
  Built.add [doc1] (add_document {} doc1) doc2 _
    (Built.add [] {} doc1 _ Built.empty (List.Perm.refl _)) (List.Perm.refl _)

theorem reachable_corpus : Reachable corpus :=
  reachable_of_built _ _ built_corpus

/-- C4: in every state reachable from the empty index by `add_document`
calls, every entry of the index has `df` equal to the length of its posting
list and `cf` equal to the sum of the `tf` of its postings, on the machine
integers (`uint32_t`, `uint64_t`): the equalities hold modulo `2^32` and
`2^64`, hence exactly when the length and the sum have not overflowed. -/
theorem counts_invariant (s : InvertedIndex) (term : List Nat) (info : TokenInfo)
    (hr : Reachable s) (hm : (term, info) ∈ s.index_) :
    (info.df = u32 info.postings.length ∧
      info.cf = u64 (info.postings.map Posting.tf).sum) ∧
    (info.postings.length < 2 ^ 32 → info.df = info.postings.length) ∧
    ((info.postings.map Posting.tf).sum < 2 ^ 64 →
      info.cf = (info.postings.map Posting.tf).sum) := by
  have h := counts_ok_reachable s hr (term, info) hm
  refine ⟨h, ?_, ?_⟩
  · intro hlt
    rw [h.1]
    exact Nat.mod_eq_of_lt hlt
  · intro hlt
    rw [h.2]
    exact Nat.mod_eq_of_lt hlt

/-- Witness of C4: the entry of `собака` in the scenario corpus. -/
theorem counts_invariant_witness :
    (bytes "собака", ({ cf := 2, df := 2, postings := [⟨1, 1⟩, ⟨2, 1⟩] } : TokenInfo))
      ∈ corpus.index_ ∧
    (2 : Nat) = ([⟨1, 1⟩, ⟨2, 1⟩] : List Posting).length ∧
    (2 : Nat) = (([⟨1, 1⟩, ⟨2, 1⟩] : List Posting).map Posting.tf).sum :=
  ⟨by rw [corpus_eq]; decide!,
   (counts_invariant corpus (bytes "собака")
     { cf := 2, df := 2, postings := [⟨1, 1⟩, ⟨2, 1⟩] } reachable_corpus
     (by rw [corpus_eq]; decide!)).2.1 (by decide),
   (counts_invariant corpus (bytes "собака")
     { cf := 2, df := 2, postings := [⟨1, 1⟩, ⟨2, 1⟩] } reachable_corpus
     (by rw [corpus_eq]; decide!)).2.2 (by decide)⟩

/-- C5 fails on the code: one document whose text holds two surface tokens
with the same stem (`abc` and `abcation`, or `кот` and `коты`) gets two
postings in the list of that stem, and `df` is 2 for a single document.  So
"at most one posting per doc id" is not an invariant of the states built from
documents with pairwise distinct ids. -/
theorem stem_collision_duplicate_posting :
    (Built [doc_abc] (add_document {} doc_abc) ∧
      map_find (add_document {} doc_abc).index_ (bytes "abc") =
        some { cf := 2, df := 2, postings := [⟨1, 1⟩, ⟨1, 1⟩] }) ∧
    (Built [doc_kot] (add_document {} doc_kot) ∧
      map_find (add_document {} doc_kot).index_ (bytes "кот") =
        some { cf := 2, df := 2, postings := [⟨1, 1⟩, ⟨1, 1⟩] }) ∧
    ¬ (∀ docs s, Built docs s → (docs.map Document.id).Nodup →
        ∀ term info, (term, info) ∈ s.index_ →
          (info.postings.map Posting.doc_id).Nodup) := by
  have hb : Built [doc_abc] (add_document {} doc_abc) :=
    Built.add [] {} doc_abc _ Built.empty (List.Perm.refl _)
  have hf : map_find (add_document {} doc_abc).index_ (bytes "abc") =
      some { cf := 2, df := 2, postings := [⟨1, 1⟩, ⟨1, 1⟩] } := by decide!
  refine ⟨⟨hb, hf⟩, ⟨Built.add [] {} doc_kot _ Built.empty (List.Perm.refl _), by decide!⟩, ?_⟩
  intro hall
  have h := hall _ _ hb (by decide) _ _ (map_find_some_mem _ _ _ hf)
  exact absurd h (by decide)

/-- C6: in every reachable state, the doc id of every posting is the id of a
stored document, and so is the doc id of every hit of every query. -/
theorem doc_ids_are_stored (s : InvertedIndex) (hr : Reachable s) :
    (∀ term info p, (term, info) ∈ s.index_ → p ∈ info.postings →
      ∃ doc ∈ s.docs_, doc.id = p.doc_id) ∧
    (∀ query h, h ∈ search s query → ∃ doc ∈ s.docs_, doc.id = h.doc_id) := by
  have hp := postings_stored_reachable s hr
  refine ⟨fun term info p hm hpm => hp (term, info) hm p hpm, ?_⟩
  intro query h hh
  have hid : h.doc_id ∈ hit_ids (search s query) := List.mem_map_of_mem _ hh
  rw [mem_hit_ids_search] at hid
  obtain ⟨g, _, ⟨t, ht, hne⟩, hall⟩ := hid
  obtain ⟨info, hmem, p, hpm, hpid⟩ := mem_posting_ids _ _ _ (hall t ht hne)
  obtain ⟨doc, hdoc, hdid⟩ := hp (_, info) hmem p hpm
  exact ⟨doc, hdoc, hdid.trans hpid⟩

/-- Witness of C6: the hit of document 2 for `собака` on the scenario corpus
is a stored document. -/
theorem doc_ids_are_stored_witness : ∃ doc ∈ corpus.docs_, doc.id = 2 :=
  (doc_ids_are_stored corpus reachable_corpus).2 (bytes "собака") ⟨2, 1⟩ (by rw [corpus_eq]; decide!)

/-- C7: a query term is normalised as an indexed token is, so every indexed
word is found by itself: after any sequence of `add_document` calls, for every
ingested document `d` and every token `w` retained from its text, trimming
leaves `w` as it is and `search w` returns a hit for `d.id`. -/
theorem indexed_word_findable (docs : List Document) (s : InvertedIndex) (d : Document)
    (w : List Nat) (hb : Built docs s) (hd : d ∈ docs) (hw : w ∈ retained_tokens d) :
    normalize_term (trim w) = normalize_term w ∧
    ∃ h ∈ search s w, h.doc_id = d.id := by
  have hc := retained_tokens_clean d w hw
  constructor
  · rw [trim_eq_self w (fun c hcw => (token_char_props c (hc.2 c hcw)).2.2.1)]
  · have hm := query_matches_clean_token s.index_ w d.id hc (built_findable docs s hb d hd w hw)
    rw [← mem_hit_ids_search] at hm
    unfold hit_ids at hm
    rw [List.mem_map] at hm
    obtain ⟨h, hh, hid⟩ := hm
    exact ⟨h, hh, hid⟩

/-- Witness of C7: `бежит`, a token of scenario document 2, finds it. -/
theorem indexed_word_findable_witness :
    bytes "бежит" ∈ retained_tokens doc2 ∧
    ∃ h ∈ search corpus (bytes "бежит"), h.doc_id = doc2.id :=
  ⟨by decide!,
   (indexed_word_findable [doc1, doc2] corpus doc2 (bytes "бежит") built_corpus
     (by decide) (by decide!)).2⟩

/-! ## The algebraic claims on queries -/

/-- C8: for terms `a` and `b` without `&` and `|` (of `b` only the absence of
`|` is used), `a` non-empty after trimming, every doc id returned for
`a&b` is returned for `a`. -/
theorem search_and_subset (s : InvertedIndex) (a b : List Nat) (d : Nat)
    (ha38 : 38 ∉ a) (ha124 : 124 ∉ a) (hb124 : 124 ∉ b) (hna : trim a ≠ [])
    (hd : d ∈ hit_ids (search s (a ++ [38] ++ b))) :
    d ∈ hit_ids (search s a) := by
  rw [List.append_assoc, List.singleton_append, mem_hit_ids_search] at hd
  have h124 : 124 ∉ a ++ 38 :: b := by
    simp only [List.mem_append, List.mem_cons, not_or]
    exact ⟨ha124, by decide, hb124⟩
  rw [query_matches_single_group _ _ _ h124] at hd
  have hda := group_matches_term _ _ a d hd
    (by rw [split_append_delim a b 38 ha38]; exact List.mem_cons_self _ _) hna
  rw [mem_hit_ids_search, query_matches_single_group _ _ _ ha124]
  unfold group_matches
  rw [split_no_delim a 38 ha38 (ne_nil_of_trim_ne_nil a hna)]
  simp only [List.mem_singleton, exists_eq_left, forall_eq]
  exact ⟨hna, fun _ => hda⟩

/-- Witness of C8 on the scenario corpus: document 1 matches
`собака&кошка`, hence `собака`. -/
theorem search_and_subset_witness :
    1 ∈ hit_ids (search corpus (bytes "собака" ++ [38] ++ bytes "кошка")) ∧
    1 ∈ hit_ids (search corpus (bytes "собака")) :=
  ⟨by rw [corpus_eq]; decide!,
   search_and_subset corpus (bytes "собака") (bytes "кошка") 1
     (by decide) (by decide) (by decide) (by decide) (by rw [corpus_eq]; decide!)⟩

/-- C9: for a string `a` without `|` (and any `b`), the doc ids returned for
`a|b` are those returned for `a` together with those returned for `b`; on the
scenario corpus `кошка|бежит` returns documents 1 and 2. -/
theorem search_or_union (s : InvertedIndex) (a b : List Nat) (ha : 124 ∉ a) :
    (∀ d, d ∈ hit_ids (search s (a ++ [124] ++ b)) ↔
      d ∈ hit_ids (search s a) ∨ d ∈ hit_ids (search s b)) ∧
    hit_ids (search corpus (bytes "кошка|бежит")) = [1, 2] := by
  refine ⟨?_, by rw [corpus_eq]; decide!⟩
  intro d
  rw [List.append_assoc, List.singleton_append, mem_hit_ids_search, mem_hit_ids_search,
    mem_hit_ids_search, query_matches_or _ _ _ _ ha, query_matches_single_group _ _ _ ha]

/-- Witness of C9 on the scenario corpus: document 2 matches `бежит`, hence
`кошка|бежит`. -/
theorem search_or_union_witness :
    2 ∈ hit_ids (search corpus (bytes "кошка" ++ [124] ++ bytes "бежит")) :=
  ((search_or_union corpus (bytes "кошка") (bytes "бежит") (by decide)).1 2).2
    (Or.inr (by rw [corpus_eq]; decide!))

/-- C10: a query of a single AND-group (no `|`) one of whose non-empty
trimmed terms normalises to a string that is not a key of the index has no
hit; so has `zzznotpresent` on the scenario corpus. -/
theorem search_unknown_term_empty (s : InvertedIndex) (query t : List Nat)
    (hq : 124 ∉ query) (ht : t ∈ split query 38) (hne : trim t ≠ [])
    (hnone : map_find s.index_ (normalize_term (trim t)) = none) :
    search s query = [] ∧ search corpus (bytes "zzznotpresent") = [] := by
  refine ⟨?_, by rw [corpus_eq]; decide!⟩
  apply search_eq_nil_of_no_match
  intro d hm
  rw [query_matches_single_group _ _ _ hq] at hm
  have h := group_matches_term _ _ t d hm ht hne
  rw [posting_ids_of_find_none hnone] at h
  exact absurd h (List.not_mem_nil _)

/-- Witness of C10 on the scenario corpus: `собака & zzz` has a known and an
unknown term, and no hit. -/
theorem search_unknown_term_empty_witness :
    map_find corpus.index_ (normalize_term (trim (bytes " zzz"))) = none ∧
    search corpus (bytes "собака & zzz") = [] :=
  ⟨by rw [corpus_eq]; decide!,
   (search_unknown_term_empty corpus (bytes "собака & zzz") (bytes " zzz")
     (by decide) (by decide!) (by decide) (by rw [corpus_eq]; decide!)).1⟩

/-! ## Queries without terms -/

theorem mem_split_item (a : List Nat) (delim : Nat) (item : List Nat)
    (h : item ∈ split a delim) : ∀ c ∈ item, c ∈ a ∧ c ≠ delim := by
  induction a generalizing item with
  | nil => simp [split] at h
  | cons x rest ih =>
    rw [split] at h
    by_cases hx : x = delim
    · rw [if_pos hx, List.mem_cons] at h
      rcases h with rfl | h
      · intro c hc
        exact absurd hc (List.not_mem_nil _)
      · intro c hc
        exact ⟨List.mem_cons_of_mem _ (ih item h c hc).1, (ih item h c hc).2⟩
    · rw [if_neg hx] at h
      cases hs : split rest delim with
      | nil =>
        rw [hs] at h
        simp only [List.mem_singleton] at h
        subst h
        intro c hc
        rw [List.mem_singleton] at hc
        subst hc
        exact ⟨List.mem_cons_self _ _, hx⟩
      | cons i is =>
        rw [hs] at h
        simp only [List.mem_cons] at h
        rcases h with rfl | h
        · intro c hc
          rw [List.mem_cons] at hc
          rcases hc with rfl | hc
          · exact ⟨List.mem_cons_self _ _, hx⟩
          · have := ih i (by rw [hs]; exact List.mem_cons_self _ _) c hc
            exact ⟨List.mem_cons_of_mem _ this.1, this.2⟩
        · intro c hc
          have := ih item (by rw [hs]; exact List.mem_cons_of_mem _ h) c hc
          exact ⟨List.mem_cons_of_mem _ this.1, this.2⟩

theorem trim_eq_nil_of_spaces (t : List Nat) (h : ∀ c ∈ t, isspace c = true) :
    trim t = [] := by
  unfold trim
  have : t.dropWhile isspace = [] := by
    rw [List.dropWhile_eq_nil_iff]
    exact h
  rw [this]
  rfl

theorem search_eq_nil_of_no_terms (s : InvertedIndex) (query : List Nat)
    (h : ∀ g ∈ split query 124, ∀ t ∈ split g 38, trim t = []) : search s query = [] := by
  apply search_eq_nil_of_no_match
  rintro d ⟨g, hg, ⟨t, ht, hne⟩, _⟩
  exact hne (h g hg t ht)

/-- C11: a query in which no group produces a term has no hit, on every
index: so for a query made of white space, `&` and `|` only, and for the empty
query.  Empty groups and empty terms are skipped, they do not match every
document. -/
theorem search_without_terms_empty (s : InvertedIndex) (query : List Nat) :
    ((∀ g ∈ split query 124, ∀ t ∈ split g 38, trim t = []) → search s query = []) ∧
    ((∀ c ∈ query, isspace c = true ∨ c = 38 ∨ c = 124) → search s query = []) ∧
    search s [] = [] := by
  refine ⟨search_eq_nil_of_no_terms s query, ?_, ?_⟩
  · intro h
    apply search_eq_nil_of_no_terms
    intro g hg t ht
    apply trim_eq_nil_of_spaces
    intro c hc
    have h1 := mem_split_item g 38 t ht c hc
    have h2 := mem_split_item query 124 g hg c h1.1
    rcases h c h2.1 with h3 | h3 | h3
    · exact h3
    · exact absurd h3 h1.2
    · exact absurd h3 h2.2
  · apply search_eq_nil_of_no_terms
    intro g hg
    simp [split] at hg

/-- Witness of C11 on the scenario corpus, whose index is not empty: a query
of separators and blanks has no hit. -/
theorem search_without_terms_empty_witness :
    corpus.index_ ≠ [] ∧ search corpus (bytes " & | &|\t") = [] :=
  ⟨by rw [corpus_eq]; decide,
   (search_without_terms_empty corpus (bytes " & | &|\t")).2.1 (by decide)⟩

/-! ## What `tokenize_document` computes -/

theorem mem_Stopwords (w : List Nat) : w ∈ Stopwords ↔ w ∈ kStopwords := by
  unfold Stopwords BuildStopwordSet
  rw [mem_set_insert_all]
  simp

/-- The effect of `flush` when `token` holds `tok`. -/
theorem flush_token (tok : List Nat) (freqs : List (List Nat × Nat))
    (stats : TokenizationStats) (h : tok ≠ []) :
    flush ⟨tok, freqs, stats⟩ =
      if tok ∈ kStopwords then ⟨[], freqs, stats⟩
      else ⟨[], map_modify 0 (fun n => u32 (n + 1)) freqs tok,
            { stats with tokens := u64 (stats.tokens + 1)
                         token_chars := u64 (stats.token_chars + tok.length) }⟩ := by
  unfold flush
  simp only [h, if_false, mem_Stopwords]
  by_cases hs : tok ∈ kStopwords
  · simp [hs]
  · simp [hs]

theorem flush_nil (freqs : List (List Nat × Nat)) (stats : TokenizationStats) :
    flush ⟨[], freqs, stats⟩ = ⟨[], freqs, stats⟩ := by
  simp [flush]

/-- The scanning loop followed by the last `flush`: the pending token is
completed by the first run of the remaining text, and every non-empty run that
is not a stopword is recorded, in order. -/
theorem tokenize_loop_spec (cs tok : List Nat) (freqs : List (List Nat × Nat))
    (stats : TokenizationStats) :
    flush (tokenize_loop cs ⟨tok, freqs, stats⟩) =
      ⟨[],
       count_tokens freqs
         ((((tok ++ (split_runs cs).1) :: (split_runs cs).2).filter (fun r => r ≠ [])).filter
           (fun r => r ∉ kStopwords)),
       count_stats stats
         ((((tok ++ (split_runs cs).1) :: (split_runs cs).2).filter (fun r => r ≠ [])).filter
           (fun r => r ∉ kStopwords))⟩ := by
  induction cs generalizing tok freqs stats with
  | nil =>
    simp only [tokenize_loop, split_runs, List.append_nil]
    by_cases ht : tok = []
    · subst ht
      simp [flush_nil, count_tokens, count_stats]
    · rw [flush_token tok freqs stats ht]
      by_cases hs : tok ∈ kStopwords
      · simp [ht, hs, count_tokens, count_stats]
      · simp [ht, hs, count_tokens, count_stats]
  | cons c cs ih =>
    rw [tokenize_loop]
    by_cases hc : is_token_char c = true
    · rw [if_pos hc]
      simp only [(token_char_props c hc).2.2.2]
      rw [ih]
      simp only [split_runs, if_pos hc, List.append_assoc, List.singleton_append]
    · rw [if_neg hc]
      simp only [split_runs, if_neg hc, List.append_nil]
      by_cases ht : tok = []
      · subst ht
        rw [flush_nil, ih]
        simp
      · rw [flush_token tok freqs stats ht]
        by_cases hs : tok ∈ kStopwords
        · rw [if_pos hs, ih]
          simp [ht, hs]
        · rw [if_neg hs, ih]
          simp [ht, hs, count_tokens, count_stats]

/-- The result of `tokenize_document`: the retained runs of the stripped text
are counted in `freqs` and in `stats`. -/
theorem tokenize_document_spec (doc : Document) (freqs : List (List Nat × Nat))
    (stats : TokenizationStats) :
    tokenize_document doc freqs stats =
      (count_tokens freqs (retained_runs (strip_tags doc.text)),
       count_stats
         { stats with docs := u64 (stats.docs + 1)
                      bytes_in := u64 (stats.bytes_in + (strip_tags doc.text).length) }
         (retained_runs (strip_tags doc.text))) := by
  unfold tokenize_document
  simp only
  rw [tokenize_loop_spec]
  simp [retained_runs, token_runs]

/-- The runs of `split_runs` are the maximal runs of token bytes: every run
is made of token bytes, and the text is the first run followed by the later
runs, each preceded by one byte that is not a token byte. -/
theorem split_runs_decomposition (text : List Nat) :
    (∀ c ∈ (split_runs text).1, is_token_char c = true) ∧
    (∀ r ∈ (split_runs text).2, ∀ c ∈ r, is_token_char c = true) ∧
    ∃ seps : List Nat,
      seps.length = (split_runs text).2.length ∧
      (∀ c ∈ seps, is_token_char c = false) ∧
      text = (split_runs text).1
        ++ (List.zipWith (fun sep r => sep :: r) seps (split_runs text).2).flatten := by
  induction text with
  | nil => exact ⟨by simp [split_runs], by simp [split_runs], [], by simp [split_runs]⟩
  | cons c cs ih =>
    obtain ⟨h1, h2, seps, hlen, hsep, htext⟩ := ih
    by_cases hc : is_token_char c = true
    · simp only [split_runs, if_pos hc]
      refine ⟨?_, h2, seps, hlen, hsep, ?_⟩
      · intro x hx
        rcases List.mem_cons.1 hx with rfl | hx
        · exact hc
        · exact h1 x hx
      · rw [List.cons_append, ← htext]
    · simp only [split_runs, if_neg hc]
      refine ⟨by simp, ?_, c :: seps, by simp [hlen], ?_, ?_⟩
      · intro r hr
        rcases List.mem_cons.1 hr with rfl | hr
        · exact h1
        · exact h2 r hr
      · intro x hx
        rcases List.mem_cons.1 hx with rfl | hx
        · simpa using hc
        · exact hsep x hx
      · simp only [List.zipWith_cons_cons, List.flatten_cons, List.nil_append, List.cons_append]
        rw [← htext]

theorem count_tokens_cons (freqs : List (List Nat × Nat)) (t : List Nat)
    (toks : List (List Nat)) :
    count_tokens freqs (t :: toks) =
      count_tokens (map_modify 0 (fun n => u32 (n + 1)) freqs t) toks := rfl

/-- The value `count_tokens` leaves under a key: the number of occurrences of
the key in the list is added, on `uint32_t`; a key that does not occur is not
touched. -/
theorem map_find_count_tokens (toks : List (List Nat)) (freqs : List (List Nat × Nat))
    (w : List Nat) :
    map_find (count_tokens freqs toks) w =
      if toks.count w = 0 then map_find freqs w
      else some (u32 ((map_find freqs w).getD 0 + toks.count w)) := by
  induction toks generalizing freqs with
  | nil => simp [count_tokens]
  | cons t toks ih =>
    rw [count_tokens_cons, ih, map_find_modify]
    by_cases htw : t = w
    · subst htw
      simp only [if_true, List.count_cons_self, Option.getD_some]
      by_cases hc : toks.count t = 0
      · simp [hc]
      · rw [if_neg hc, if_neg (by omega), u32_add_left]
        congr 2
        omega
    · have hne : (t == w) = false := by simpa using htw
      simp only [if_neg htw, List.count_cons, hne, Bool.false_eq_true, if_false, Nat.add_zero]

theorem mem_count_tokens (toks : List (List Nat)) (freqs : List (List Nat × Nat))
    (e : List Nat × Nat) (h : e ∈ count_tokens freqs toks) :
    e ∈ freqs ∨ e.1 ∈ toks := by
  induction toks generalizing freqs with
  | nil => exact Or.inl h
  | cons t toks ih =>
    rw [count_tokens_cons] at h
    rcases ih _ h with h1 | h1
    · rcases mem_map_modify _ _ _ _ e h1 with h2 | ⟨h2, _⟩
      · exact Or.inl h2
      · exact Or.inr (h2 ▸ List.mem_cons_self _ _)
    · exact Or.inr (List.mem_cons_of_mem _ h1)

theorem count_stats_cons (stats : TokenizationStats) (t : List Nat) (toks : List (List Nat)) :
    count_stats stats (t :: toks) =
      count_stats { stats with tokens := u64 (stats.tokens + 1)
                               token_chars := u64 (stats.token_chars + t.length) } toks := rfl

theorem count_stats_docs (toks : List (List Nat)) (stats : TokenizationStats) :
    (count_stats stats toks).docs = stats.docs ∧
      (count_stats stats toks).bytes_in = stats.bytes_in := by
  induction toks generalizing stats with
  | nil => exact ⟨rfl, rfl⟩
  | cons t toks ih =>
    rw [count_stats_cons]
    exact ih _

theorem count_stats_tokens (toks : List (List Nat)) (t : List Nat) (stats : TokenizationStats) :
    (count_stats stats (t :: toks)).tokens = u64 (stats.tokens + (t :: toks).length) ∧
      (count_stats stats (t :: toks)).token_chars =
        u64 (stats.token_chars + ((t :: toks).map List.length).sum) := by
  induction toks generalizing stats t with
  | nil => simp [count_stats]
  | cons t2 toks ih =>
    rw [count_stats_cons]
    have h := ih t2 { stats with tokens := u64 (stats.tokens + 1)
                                 token_chars := u64 (stats.token_chars + t.length) }
    rw [h.1, h.2]
    simp only [u64_add_left, List.length_cons, List.map_cons, List.sum_cons]
    constructor
    · congr 1
      omega
    · congr 1
      omega

/-- The counters `tokens` and `token_chars` after `count_stats`, modulo
`2^64`, and exactly when the sums fit. -/
theorem count_stats_counters (toks : List (List Nat)) (stats : TokenizationStats) :
    (u64 (count_stats stats toks).tokens = u64 (stats.tokens + toks.length) ∧
      u64 (count_stats stats toks).token_chars =
        u64 (stats.token_chars + (toks.map List.length).sum)) ∧
    (stats.tokens + toks.length < 2 ^ 64 →
      (count_stats stats toks).tokens = stats.tokens + toks.length) ∧
    (stats.token_chars + (toks.map List.length).sum < 2 ^ 64 →
      (count_stats stats toks).token_chars =
        stats.token_chars + (toks.map List.length).sum) := by
  cases toks with
  | nil => simp [count_stats]
  | cons t toks =>
    have h := count_stats_tokens toks t stats
    rw [h.1, h.2]
    refine ⟨⟨?_, ?_⟩, ?_, ?_⟩
    · unfold u64
      omega
    · unfold u64
      omega
    · intro hlt
      exact Nat.mod_eq_of_lt hlt
    · intro hlt
      exact Nat.mod_eq_of_lt hlt

theorem mem_token_runs_ne_nil (text r : List Nat) (h : r ∈ token_runs text) : r ≠ [] := by
  unfold token_runs at h
  rw [List.mem_filter] at h
  simpa using h.2

theorem mem_retained_runs (text r : List Nat) :
    r ∈ retained_runs text ↔ r ∈ token_runs text ∧ r ∉ kStopwords := by
  unfold retained_runs
  rw [List.mem_filter]
  simp

theorem count_retained_runs (text w : List Nat) (h : w ∉ kStopwords) :
    (retained_runs text).count w = (token_runs text).count w := by
  unfold retained_runs
  rw [List.count_filter]
  simpa using h

/-! ## The claims on the tokenizer -/

/-- C12 fails on the code: `is_token_char` is tested on the raw byte, before
`to_lower_ascii`, so an ASCII uppercase letter ends the token instead of
being folded into it.  The text `Hello` yields the token `ello`, not
`hello`, and `Http` yields `ttp`, which is not a stopword, whereas `http` is
filtered: the frequency map of a text differs from that of its lower-cased
form. -/
theorem uppercase_letter_ends_token :
    (tokenize_document { text := bytes "Hello" } [] {}).1 = [(bytes "ello", 1)] ∧
    (tokenize_document { text := bytes "hello" } [] {}).1 = [(bytes "hello", 1)] ∧
    (tokenize_document { text := bytes "Http" } [] {}).1 = [(bytes "ttp", 1)] ∧
    (tokenize_document { text := bytes "http" } [] {}).1 = [] ∧
    (bytes "Hello").map to_lower_ascii = bytes "hello" ∧
    ¬ (∀ text : List Nat,
        (tokenize_document { text := text } [] {}).1 =
          (tokenize_document { text := text.map to_lower_ascii } [] {}).1) := by
  have h1 : (tokenize_document { text := bytes "Hello" } [] {}).1 = [(bytes "ello", 1)] := by
    decide!
  have h2 : (tokenize_document { text := (bytes "Hello").map to_lower_ascii } [] {}).1 =
      [(bytes "hello", 1)] := by decide!
  refine ⟨h1, by decide!, by decide!, by decide!, by decide, ?_⟩
  intro hall
  have h := hall (bytes "Hello")
  rw [h1, h2] at h
  exact absurd h (by decide)

/-! ## `stem_word` -/

theorem suffix_drop (w s : List Nat) (h : s <:+ w) :
    w.drop (w.length - s.length) = s ∧ w.take (w.length - s.length) ++ s = w := by
  obtain ⟨t, rfl⟩ := h
  simp

theorem suffix_of_drop (w s : List Nat) (h : w.drop (w.length - s.length) = s) : s <:+ w :=
  ⟨w.take (w.length - s.length), by
    have h2 := List.take_append_drop (w.length - s.length) w
    rw [h] at h2
    exact h2⟩

theorem stem_loop_none (w : List Nat) (l : List (List Nat))
    (h : ∀ s ∈ l, ¬ (s <:+ w ∧ s.length + 2 ≤ w.length)) : stem_loop w l = w := by
  induction l with
  | nil => rfl
  | cons s rest ih =>
    rw [stem_loop, if_neg, ih (fun r hr => h r (List.mem_cons_of_mem _ hr))]
    rintro ⟨h1, h2⟩
    exact h s (List.mem_cons_self _ _) ⟨suffix_of_drop w s h2, by omega⟩

theorem stem_loop_first (w s : List Nat) (pre post : List (List Nat))
    (hpre : ∀ r ∈ pre, ¬ (r <:+ w ∧ r.length + 2 ≤ w.length))
    (hs : s <:+ w) (hlen : s.length + 2 ≤ w.length) :
    stem_loop w (pre ++ s :: post) = w.take (w.length - s.length) := by
  induction pre with
  | nil =>
    rw [List.nil_append, stem_loop, if_pos ⟨by omega, (suffix_drop w s hs).1⟩]
  | cons r pre ih =>
    rw [List.cons_append, stem_loop, if_neg, ih (fun x hx => hpre x (List.mem_cons_of_mem _ hx))]
    rintro ⟨h1, h2⟩
    exact hpre r (List.mem_cons_self _ _) ⟨suffix_of_drop w r h2, by omega⟩

/-- C13 fails on the code as stated: `xation` has 6 bytes and ends with the
listed suffix `ation`, whose removal leaves the 1 byte `x`, yet `stem_word`
returns `xation` unchanged (the loop requires `word.size() > len + 1`). -/
theorem stem_word_keeps_one_byte_stem :
    4 ≤ (bytes "xation").length ∧ bytes "ation" ∈ endings ∧
    bytes "xation" = bytes "x" ++ bytes "ation" ∧ 1 ≤ (bytes "x").length ∧
    stem_word (bytes "xation") = bytes "xation" ∧
    stem_word (bytes "xation") ≠ bytes "x" := by
  decide

/-- C13, amended: for a token `w` of at least 4 bytes that ends with the
listed suffix `s`, whose removal leaves the stem of at least 2 bytes, `s`
being the first suffix of the list in declared order of which this is true,
`stem_word w` is `w` with `s` removed.  List order decides, not length:
`планировать` loses `овать`, listed before `ировать`. -/
theorem stem_word_strips_first_suffix (w stem s : List Nat) (pre post : List (List Nat))
    (hlen : 4 ≤ w.length) (hlist : endings = pre ++ s :: post) (hw : w = stem ++ s)
    (hstem : 2 ≤ stem.length)
    (hfirst : ∀ r ∈ pre, ¬ (r <:+ w ∧ r.length + 2 ≤ w.length)) :
    stem_word w = stem ∧
    stem_word (bytes "xxation") = bytes "xx" ∧
    stem_word (bytes "планировать") = bytes "планир" := by
  refine ⟨?_, by decide, by decide⟩
  unfold stem_word
  rw [if_neg (by omega), hlist,
    stem_loop_first w s pre post hfirst ⟨stem, hw.symm⟩ (by rw [hw, List.length_append]; omega)]
  subst hw
  simp

/-- Witness of the amended C13: `abcation` loses `ation`, the fifth suffix of
the list, none of the four before it being a suffix of the token. -/
theorem stem_word_strips_first_suffix_witness :
    stem_word (bytes "abcation") = bytes "abc" :=
  (stem_word_strips_first_suffix (bytes "abcation") (bytes "abc") (bytes "ation")
    (endings.take 4) (endings.drop 5) (by decide) (by decide) (by decide) (by decide)
    (by decide)).1

/-- C14: `stem_word` returns its argument unchanged when it is shorter than 4
bytes, and when it ends with none of the listed suffixes. -/
theorem stem_word_unchanged (w : List Nat) :
    (w.length < 4 → stem_word w = w) ∧
    (4 ≤ w.length → (∀ s ∈ endings, ¬ s <:+ w) → stem_word w = w) := by
  constructor
  · intro h
    unfold stem_word
    rw [if_pos h]
  · intro _ h
    unfold stem_word
    split
    · rfl
    · exact stem_loop_none w endings (fun s hs hq => h s hs hq.1)

/-- Witness of C14: the 3-byte `abs`, and `кошка`, which ends with no listed
suffix. -/
theorem stem_word_unchanged_witness :
    stem_word (bytes "abs") = bytes "abs" ∧ stem_word (bytes "кошка") = bytes "кошка" :=
  ⟨(stem_word_unchanged (bytes "abs")).1 (by decide),
   (stem_word_unchanged (bytes "кошка")).2 (by decide) (by decide)⟩

/-- The value the frequency map of a document holds for `w`: the number of
runs equal to `w`, counted on `uint32_t`, when `w` is a run and not a
stopword, and none otherwise. -/
theorem map_find_freqs (doc : Document) (stats : TokenizationStats) (w : List Nat) :
    map_find (tokenize_document doc [] stats).1 w =
      (if w ∈ token_runs (strip_tags doc.text) ∧ w ∉ kStopwords then
        some (u32 ((token_runs (strip_tags doc.text)).count w))
      else none) := by
  rw [tokenize_document_spec]
  simp only
  rw [map_find_count_tokens]
  by_cases hw : w ∈ token_runs (strip_tags doc.text) ∧ w ∉ kStopwords
  · have hc : (retained_runs (strip_tags doc.text)).count w ≠ 0 := by
      rw [← Nat.pos_iff_ne_zero, List.count_pos_iff, mem_retained_runs]
      exact hw
    rw [if_neg hc, if_pos hw, count_retained_runs _ _ hw.2]
    simp [map_find]
  · have hc : (retained_runs (strip_tags doc.text)).count w = 0 := by
      rw [List.count_eq_zero, mem_retained_runs]
      exact hw
    rw [if_pos hc, if_neg hw]
    rfl

theorem freqs_keys_clean (doc : Document) (stats : TokenizationStats) :
    ∀ e ∈ (tokenize_document doc [] stats).1, e.1 ≠ [] ∧ e.1 ∉ kStopwords := by
  intro e he
  rw [tokenize_document_spec] at he
  rcases mem_count_tokens _ _ e he with h | h
  · exact absurd h (List.not_mem_nil _)
  · rw [mem_retained_runs] at h
    exact ⟨mem_token_runs_ne_nil _ _ h.1, h.2⟩

/-- C15, amended: for every text in which no single token occurs `2^32` times
or more, the frequency map `tokenize_document` fills from an empty one maps
`w` to the number of maximal runs of token bytes of the markup-stripped text
that are equal to `w`, for exactly the runs `w` that are not in the stopword
list; no key is empty and none is a stopword.  (Texts with ASCII uppercase
letters are included: such a letter is not a token byte and separates runs.) -/
theorem freqs_count_token_runs (doc : Document) (stats : TokenizationStats)
    (hfit : ∀ v, (token_runs (strip_tags doc.text)).count v < 2 ^ 32) :
    (∀ w, map_find (tokenize_document doc [] stats).1 w =
      (if w ∈ token_runs (strip_tags doc.text) ∧ w ∉ kStopwords then
        some ((token_runs (strip_tags doc.text)).count w)
      else none)) ∧
    (∀ e ∈ (tokenize_document doc [] stats).1, e.1 ≠ [] ∧ e.1 ∉ kStopwords) ∧
    (tokenize_document doc_mixed [] {}).1 =
      [(bytes "кот", 2), (bytes "кот-9", 1), (bytes "x", 1)] := by
  refine ⟨?_, freqs_keys_clean doc stats, by decide!⟩
  intro w
  rw [map_find_freqs]
  have h : u32 ((token_runs (strip_tags doc.text)).count w)
      = (token_runs (strip_tags doc.text)).count w := Nat.mod_eq_of_lt (hfit w)
  rw [h]

/-- Witness of the amended C15: the run `кот` occurs three times in a text
with markup, a stopword and an ASCII uppercase letter. -/
theorem freqs_count_token_runs_witness :
    map_find (tokenize_document { text := bytes "кот и <b>кот</b> Aкот" } [] {}).1 (bytes "кот")
      = some 3 :=
  ((freqs_count_token_runs { text := bytes "кот и <b>кот</b> Aкот" } {}
      (fun v => lt_of_le_of_lt (List.count_le_length v _) (by decide!))).1 (bytes "кот")).trans
    (by decide!)

/-! ## `strip_tags` -/

theorem strip_tags_loop_outside (a rest : List Nat) (ha : 60 ∉ a) :
    strip_tags_loop (a ++ rest) false = a ++ strip_tags_loop rest false := by
  induction a with
  | nil => rfl
  | cons x a ih =>
    have hx : x ≠ 60 := fun e => ha (e ▸ List.mem_cons_self _ _)
    have ha2 : 60 ∉ a := fun e => ha (List.mem_cons_of_mem _ e)
    rw [List.cons_append, strip_tags_loop, if_neg hx, if_neg (by simp), if_pos rfl, ih ha2,
      List.cons_append]

theorem strip_tags_loop_inside (b rest : List Nat) (hb : 62 ∉ b) :
    strip_tags_loop (b ++ rest) true = strip_tags_loop rest true := by
  induction b with
  | nil => rfl
  | cons x b ih =>
    have hx : x ≠ 62 := fun e => hb (e ▸ List.mem_cons_self _ _)
    have hb2 : 62 ∉ b := fun e => hb (List.mem_cons_of_mem _ e)
    rw [List.cons_append, strip_tags_loop]
    by_cases h60 : x = 60
    · rw [if_pos h60, ih hb2]
    · rw [if_neg h60, if_neg (by simp [hx]), if_neg (by simp), ih hb2]

/-- C16: `strip_tags` removes everything from a `<` through the next `>`: for
`a` without `<` and `b` without `>`, the tag `<b>` after `a` is dropped and
the text after it is stripped in turn; a `<` that no `>` follows swallows the
rest of the input; a text without `<` is returned unchanged. -/
theorem strip_tags_drops_tag (a b c : List Nat) (ha : 60 ∉ a) (hb : 62 ∉ b) :
    strip_tags (a ++ [60] ++ b ++ [62] ++ c) = a ++ strip_tags c ∧
    strip_tags (a ++ [60] ++ b) = a ∧
    strip_tags a = a := by
  unfold strip_tags
  refine ⟨?_, ?_, ?_⟩
  · rw [List.append_assoc, List.append_assoc, List.append_assoc,
      strip_tags_loop_outside _ _ ha, List.singleton_append, strip_tags_loop, if_pos rfl,
      strip_tags_loop_inside _ _ hb, List.singleton_append, strip_tags_loop,
      if_neg (by decide), if_pos ⟨rfl, rfl⟩]
  · rw [List.append_assoc, strip_tags_loop_outside _ _ ha, List.singleton_append,
      strip_tags_loop, if_pos rfl]
    have := strip_tags_loop_inside b [] hb
    rw [List.append_nil] at this
    rw [this]
    simp [strip_tags_loop]
  · have := strip_tags_loop_outside a [] ha
    rw [List.append_nil] at this
    rw [this]
    simp [strip_tags_loop]

/-- Witness of C16: a paragraph tag with an attribute holding `<`, and a text
holding a stray `>`. -/
theorem strip_tags_drops_tag_witness :
    strip_tags (bytes "a>b" ++ [60] ++ bytes "p x=<" ++ [62] ++ bytes "c<d") =
        bytes "a>b" ++ strip_tags (bytes "c<d") ∧
    strip_tags (bytes "a>b" ++ [60] ++ bytes "p x=<") = bytes "a>b" ∧
    strip_tags (bytes "a>b") = bytes "a>b" :=
  strip_tags_drops_tag (bytes "a>b") (bytes "p x=<") (bytes "c<d") (by decide) (by decide)

/-- C17: one `tokenize_document` call adds 1 to `docs`, the byte length of
the stripped text to `bytes_in`, the number of retained token occurrences to
`tokens` and their total byte length, before stemming, to `token_chars`; the
counters are `uint64_t`, so the sums are taken modulo `2^64` and are exact
when they fit.  A text without retained token leaves the term map empty and
`tokens`, `token_chars` as they were, and is counted in `docs`. -/
theorem tokenize_document_stats (doc : Document) (freqs : List (List Nat × Nat))
    (stats : TokenizationStats) :
    ((tokenize_document doc freqs stats).2.docs = u64 (stats.docs + 1) ∧
      (tokenize_document doc freqs stats).2.bytes_in =
        u64 (stats.bytes_in + (strip_tags doc.text).length) ∧
      u64 (tokenize_document doc freqs stats).2.tokens =
        u64 (stats.tokens + (retained_runs (strip_tags doc.text)).length) ∧
      u64 (tokenize_document doc freqs stats).2.token_chars =
        u64 (stats.token_chars +
          ((retained_runs (strip_tags doc.text)).map List.length).sum)) ∧
    ((stats.docs + 1 < 2 ^ 64 →
        (tokenize_document doc freqs stats).2.docs = stats.docs + 1) ∧
      (stats.bytes_in + (strip_tags doc.text).length < 2 ^ 64 →
        (tokenize_document doc freqs stats).2.bytes_in =
          stats.bytes_in + (strip_tags doc.text).length) ∧
      (stats.tokens + (retained_runs (strip_tags doc.text)).length < 2 ^ 64 →
        (tokenize_document doc freqs stats).2.tokens =
          stats.tokens + (retained_runs (strip_tags doc.text)).length) ∧
      (stats.token_chars + ((retained_runs (strip_tags doc.text)).map List.length).sum
          < 2 ^ 64 →
        (tokenize_document doc freqs stats).2.token_chars =
          stats.token_chars +
            ((retained_runs (strip_tags doc.text)).map List.length).sum)) ∧
    (retained_runs (strip_tags doc.text) = [] →
      (tokenize_document doc [] stats).1 = [] ∧
      (tokenize_document doc freqs stats).2.tokens = stats.tokens ∧
      (tokenize_document doc freqs stats).2.token_chars = stats.token_chars ∧
      (tokenize_document doc freqs stats).2.docs = u64 (stats.docs + 1)) ∧
    (tokenize_document { text := bytes "" } [] {} = ([], { docs := 1 }) ∧
      tokenize_document { text := bytes " ,.;!" } [] {} = ([], { docs := 1, bytes_in := 5 }) ∧
      tokenize_document { text := bytes "и на http" } [] {} =
        ([], { docs := 1, bytes_in := 12 })) := by
  have hd := count_stats_docs (retained_runs (strip_tags doc.text))
    { stats with docs := u64 (stats.docs + 1)
                 bytes_in := u64 (stats.bytes_in + (strip_tags doc.text).length) }
  have hc := count_stats_counters (retained_runs (strip_tags doc.text))
    { stats with docs := u64 (stats.docs + 1)
                 bytes_in := u64 (stats.bytes_in + (strip_tags doc.text).length) }
  rw [tokenize_document_spec doc freqs stats, tokenize_document_spec doc [] stats]
  simp only at hd hc ⊢
  refine ⟨⟨hd.1, hd.2, hc.1.1, hc.1.2⟩, ⟨?_, ?_, hc.2.1, hc.2.2⟩, ?_, ?_⟩
  · intro hlt
    rw [hd.1]
    exact Nat.mod_eq_of_lt hlt
  · intro hlt
    rw [hd.2]
    exact Nat.mod_eq_of_lt hlt
  · intro hnil
    rw [hnil]
    exact ⟨rfl, rfl, rfl, rfl⟩
  · exact ⟨by decide!, by decide!, by decide!⟩

/-- Witness of C17: the counters after `doc_mixed` (38 bytes once stripped,
4 retained tokens of 21 bytes), from a state that has seen 7 documents. -/
theorem tokenize_document_stats_witness :
    retained_runs (strip_tags doc_mixed.text) =
      [bytes "кот", bytes "кот", bytes "кот-9", bytes "x"] ∧
    (tokenize_document doc_mixed [] stats_seven).2.docs = stats_seven.docs + 1 ∧
    (tokenize_document doc_mixed [] stats_seven).2.bytes_in =
      stats_seven.bytes_in + (strip_tags doc_mixed.text).length ∧
    (tokenize_document doc_mixed [] stats_seven).2.tokens =
      stats_seven.tokens + (retained_runs (strip_tags doc_mixed.text)).length ∧
    (tokenize_document doc_mixed [] stats_seven).2.token_chars =
      stats_seven.token_chars +
        ((retained_runs (strip_tags doc_mixed.text)).map List.length).sum :=
  ⟨by decide!,
   (tokenize_document_stats doc_mixed [] stats_seven).2.1.1 (by decide),
   (tokenize_document_stats doc_mixed [] stats_seven).2.1.2.1 (by decide!),
   (tokenize_document_stats doc_mixed [] stats_seven).2.1.2.2.1 (by decide!),
   (tokenize_document_stats doc_mixed [] stats_seven).2.1.2.2.2 (by decide!)⟩

/-! ## The claims on `add_document` -/

/-- C18: after `add_document(doc)`, in whatever order `freqs` is visited, the
document store is the previous one with one entry appended, which has the id,
source, url and title of `doc` and an empty text; the earlier entries are
unchanged and `doc_count` has grown by 1. -/
theorem add_document_appends_metadata (s : InvertedIndex) (doc : Document)
    (order : List (List Nat × Nat)) :
    (add_document_iter s doc order).docs_ =
      s.docs_ ++ [{ id := doc.id, source := doc.source, url := doc.url, title := doc.title,
                    text := [] }] ∧
    (add_document s doc).docs_ =
      s.docs_ ++ [{ id := doc.id, source := doc.source, url := doc.url, title := doc.title,
                    text := [] }] ∧
    doc_count (add_document_iter s doc order) = doc_count s + 1 ∧
    doc_count (add_document s doc) = doc_count s + 1 ∧
    (∀ i, i < doc_count s → (add_document_iter s doc order).docs_[i]? = s.docs_[i]?) ∧
    (add_document corpus { id := 9, title := bytes "t", text := bytes " ,и" }).docs_ =
      [{ id := 1 }, { id := 2 }, { id := 9, title := bytes "t" }] := by
  refine ⟨rfl, rfl, ?_, ?_, ?_, ?_⟩
  · simp [doc_count, add_document_iter]
  · simp [doc_count, add_document, add_document_iter]
  · intro i hi
    simp only [add_document_iter]
    exact List.getElem?_append_left hi
  · rw [corpus_eq]
    decide!

/-- Witness of C18: the second stored document of the scenario corpus is
still the second one after a further document is added. -/
theorem add_document_appends_metadata_witness :
    (add_document_iter corpus doc_mixed []).docs_[1]? = corpus.docs_[1]? :=
  (add_document_appends_metadata corpus doc_mixed []).2.2.2.2.1 1
    (by rw [corpus_eq]; decide)

/-! ## What the loop of `add_document` does to one term -/

theorem entries_of_cons (t tok : List Nat) (freq : Nat) (rest : List (List Nat × Nat)) :
    entries_of t ((tok, freq) :: rest) =
      if normalize_term tok = t then (tok, freq) :: entries_of t rest
      else entries_of t rest := by
  unfold entries_of
  by_cases h : normalize_term tok = t
  · simp [List.filter_cons, h]
  · simp [List.filter_cons, h]

/-- The entry of `term` after the loop: each entry of the enumeration filed
under `term` updates it in turn, the other entries leave it alone. -/
theorem map_find_index_entries (doc_id : Nat) (entries : List (List Nat × Nat))
    (index : List (List Nat × TokenInfo)) (t : List Nat) :
    map_find (index_entries doc_id index entries) t =
      (entries_of t entries).foldl
        (fun o e => some (add_posting doc_id e.2 (o.getD {}))) (map_find index t) := by
  induction entries generalizing index with
  | nil => rfl
  | cons kv rest ih =>
    obtain ⟨tok, freq⟩ := kv
    rw [index_entries, ih, map_find_modify, entries_of_cons]
    by_cases h : normalize_term tok = t
    · subst h
      simp only [if_true, List.foldl_cons]
    · simp only [if_neg h]

/-- The updates of one term, summed up. -/
theorem foldl_add_posting (doc_id : Nat) (es : List (List Nat × Nat)) (e : List Nat × Nat)
    (o : Option TokenInfo) :
    (e :: es).foldl (fun o e => some (add_posting doc_id e.2 (o.getD {}))) o =
      some { cf := u64 ((o.getD {}).cf + ((e :: es).map Prod.snd).sum)
             df := u32 ((o.getD {}).df + (e :: es).length)
             postings := (o.getD {}).postings ++ postings_of doc_id (e :: es) } := by
  induction es generalizing e o with
  | nil => simp [add_posting, postings_of]
  | cons e2 es ih =>
    rw [List.foldl_cons, ih]
    simp only [Option.getD_some, add_posting, u64_add_left, u32_add_left, postings_of,
      List.map_cons, List.sum_cons, List.length_cons, List.append_assoc, List.singleton_append]
    congr 2
    · congr 1
      omega
    · congr 1
      omega

/-- The entry of `term` after the loop of `add_document`. -/
theorem map_find_index_entries_eq (doc_id : Nat) (entries : List (List Nat × Nat))
    (index : List (List Nat × TokenInfo)) (t : List Nat) :
    map_find (index_entries doc_id index entries) t =
      if entries_of t entries = [] then map_find index t
      else some { cf := u64 ((info_of index t).cf + ((entries_of t entries).map Prod.snd).sum)
                  df := u32 ((info_of index t).df + (entries_of t entries).length)
                  postings := (info_of index t).postings
                    ++ postings_of doc_id (entries_of t entries) } := by
  rw [map_find_index_entries]
  cases h : entries_of t entries with
  | nil => rfl
  | cons e es =>
    rw [foldl_add_posting, if_neg (List.cons_ne_nil _ _)]
    rfl

theorem entries_of_perm (t : List Nat) (o1 o2 : List (List Nat × Nat)) (h : o1.Perm o2) :
    (entries_of t o1).Perm (entries_of t o2) :=
  h.filter _

theorem mem_postings_of (doc_id : Nat) (es : List (List Nat × Nat)) (p : Posting)
    (h : p ∈ postings_of doc_id es) : p.doc_id = doc_id := by
  unfold postings_of at h
  rw [List.mem_map] at h
  obtain ⟨e, _, rfl⟩ := h
  rfl

theorem postings_of_tf_sum (doc_id : Nat) (es : List (List Nat × Nat)) :
    ((postings_of doc_id es).map Posting.tf).sum = (es.map Prod.snd).sum ∧
      (postings_of doc_id es).length = es.length := by
  unfold postings_of
  simp [List.map_map, Function.comp_def]

theorem u64_idem (a : Nat) : u64 (u64 a) = u64 a := by
  unfold u64
  omega

theorem u32_idem (a : Nat) : u32 (u32 a) = u32 a := by
  unfold u32
  omega

theorem entries_of_eq_nil (t : List Nat) (entries : List (List Nat × Nat))
    (h : ∀ e ∈ entries, normalize_term e.1 ≠ t) : entries_of t entries = [] := by
  unfold entries_of
  rw [List.filter_eq_nil_iff]
  intro e he
  simpa using h e he

/-- C19, amended: `add_document` only appends.  A term `t` present before the
call is present after it, with its old posting list followed by the added
postings, which all carry `doc.id`; `cf` has grown by the sum of their `tf`
and `df` by their number, on `uint64_t` and `uint32_t`, so neither decreases
as long as the counter does not wrap (`cf` plus the added sum below `2^64`,
`df` plus the number of added postings below `2^32`).  The postings added to
any term, new or old, carry `doc.id`, and a term that is not the normal form
of a retained token of `doc` keeps its entry. -/
theorem add_document_append_only (s : InvertedIndex) (doc : Document)
    (order : List (List Nat × Nat))
    (horder : order.Perm (tokenize_document doc [] s.stats_).1) (t : List Nat) :
    (∀ info, map_find s.index_ t = some info →
      ∃ info2 added,
        map_find (add_document_iter s doc order).index_ t = some info2 ∧
        info2.postings = info.postings ++ added ∧
        (∀ p ∈ added, p.doc_id = doc.id) ∧
        u64 info2.cf = u64 (info.cf + (added.map Posting.tf).sum) ∧
        u32 info2.df = u32 (info.df + added.length) ∧
        (info.cf + (added.map Posting.tf).sum < 2 ^ 64 →
          info2.cf = info.cf + (added.map Posting.tf).sum ∧ info.cf ≤ info2.cf) ∧
        (info.df + added.length < 2 ^ 32 →
          info2.df = info.df + added.length ∧ info.df ≤ info2.df)) ∧
    (∀ info2, map_find (add_document_iter s doc order).index_ t = some info2 →
      ∃ added, info2.postings = (info_of s.index_ t).postings ++ added ∧
        ∀ p ∈ added, p.doc_id = doc.id) ∧
    ((∀ w ∈ retained_tokens doc, normalize_term w ≠ t) →
      map_find (add_document_iter s doc order).index_ t = map_find s.index_ t) := by
  have hfind := map_find_index_entries_eq doc.id order s.index_ t
  have hsum := postings_of_tf_sum doc.id (entries_of t order)
  refine ⟨?_, ?_, ?_⟩
  · intro info hinfo
    have hio : info_of s.index_ t = info := by simp [info_of, hinfo]
    by_cases hes : entries_of t order = []
    · refine ⟨info, [], ?_, by simp, by simp, by simp, by simp, ?_, ?_⟩
      · simp only [add_document_iter]
        rw [hfind, if_pos hes, hinfo]
      · intro _
        simp
      · intro _
        simp
    · refine ⟨{ cf := u64 (info.cf + ((entries_of t order).map Prod.snd).sum)
                df := u32 (info.df + (entries_of t order).length)
                postings := info.postings ++ postings_of doc.id (entries_of t order) },
        postings_of doc.id (entries_of t order), ?_, ?_, ?_, ?_, ?_, ?_, ?_⟩
      · simp only [add_document_iter]
        rw [hfind, if_neg hes, hio]
      · rfl
      · exact fun p hp => mem_postings_of _ _ p hp
      · simp only [hsum.1, u64_idem]
      · simp only [hsum.2, u32_idem]
      · intro hlt
        simp only [hsum.1] at hlt ⊢
        have : u64 (info.cf + ((entries_of t order).map Prod.snd).sum)
            = info.cf + ((entries_of t order).map Prod.snd).sum := Nat.mod_eq_of_lt hlt
        rw [this]
        exact ⟨rfl, Nat.le_add_right _ _⟩
      · intro hlt
        simp only [hsum.2] at hlt ⊢
        have : u32 (info.df + (entries_of t order).length)
            = info.df + (entries_of t order).length := Nat.mod_eq_of_lt hlt
        rw [this]
        exact ⟨rfl, Nat.le_add_right _ _⟩
  · intro info2 hinfo2
    simp only [add_document_iter] at hinfo2
    rw [hfind] at hinfo2
    by_cases hes : entries_of t order = []
    · rw [if_pos hes] at hinfo2
      exact ⟨[], by simp [info_of, hinfo2], by simp⟩
    · rw [if_neg hes] at hinfo2
      refine ⟨postings_of doc.id (entries_of t order), ?_, fun p hp => mem_postings_of _ _ p hp⟩
      rw [← Option.some.inj hinfo2]
  · intro hno
    simp only [add_document_iter]
    rw [hfind, if_pos]
    apply entries_of_eq_nil
    intro e he
    apply hno
    unfold retained_tokens
    rw [← tokenize_document_freqs doc s.stats_]
    exact List.mem_map_of_mem _ (horder.mem_iff.1 he)

/-- Witness of the amended C19 on the scenario corpus: after `собака кот` is
added as document 3, the entry of `собака` has one more posting, and the entry of
`кошка` is the same. -/
theorem add_document_append_only_witness :
    (∃ info2 added,
      map_find (add_document corpus { id := 3, text := bytes "собака кот" }).index_
        (bytes "собака") = some info2 ∧
      info2.postings = [⟨1, 1⟩, ⟨2, 1⟩] ++ added ∧
      (∀ p ∈ added, p.doc_id = 3) ∧
      u64 info2.cf = u64 (2 + (added.map Posting.tf).sum) ∧
      u32 info2.df = u32 (2 + added.length) ∧
      (2 + (added.map Posting.tf).sum < 2 ^ 64 →
        info2.cf = 2 + (added.map Posting.tf).sum ∧ 2 ≤ info2.cf) ∧
      (2 + added.length < 2 ^ 32 → info2.df = 2 + added.length ∧ 2 ≤ info2.df)) ∧
    map_find (add_document corpus { id := 3, text := bytes "собака кот" }).index_
        (bytes "кошка") = map_find corpus.index_ (bytes "кошка") :=
  ⟨(add_document_append_only corpus { id := 3, text := bytes "собака кот" } _
      (List.Perm.refl _) (bytes "собака")).1
      { cf := 2, df := 2, postings := [⟨1, 1⟩, ⟨2, 1⟩] } (by rw [corpus_eq]; decide!),
   (add_document_append_only corpus { id := 3, text := bytes "собака кот" } _
      (List.Perm.refl _) (bytes "кошка")).2.2 (by decide!)⟩

/-- The two indexes obtained from two enumerations of the same entries agree
on every term. -/
theorem index_entries_perm (doc_id : Nat) (index : List (List Nat × TokenInfo))
    (o1 o2 : List (List Nat × Nat)) (h : o1.Perm o2) (t : List Nat) :
    (map_find (index_entries doc_id index o1) t).isSome =
      (map_find (index_entries doc_id index o2) t).isSome ∧
    ∀ i1 i2, map_find (index_entries doc_id index o1) t = some i1 →
      map_find (index_entries doc_id index o2) t = some i2 →
      i1.cf = i2.cf ∧ i1.df = i2.df ∧ i1.postings.Perm i2.postings := by
  have hp := entries_of_perm t o1 o2 h
  rw [map_find_index_entries_eq, map_find_index_entries_eq]
  by_cases h1 : entries_of t o1 = []
  · have h2 : entries_of t o2 = [] := by
      rw [h1] at hp
      exact hp.nil_eq.symm
    rw [if_pos h1, if_pos h2]
    refine ⟨rfl, ?_⟩
    intro i1 i2 e1 e2
    rw [e1] at e2
    cases e2
    exact ⟨rfl, rfl, List.Perm.refl _⟩
  · have h2 : entries_of t o2 ≠ [] := by
      intro e
      rw [e] at hp
      exact h1 hp.eq_nil
    rw [if_neg h1, if_neg h2]
    refine ⟨rfl, ?_⟩
    intro i1 i2 e1 e2
    cases e1
    cases e2
    refine ⟨?_, ?_, ?_⟩
    · simp only [(hp.map Prod.snd).sum_eq]
    · simp only [hp.length_eq]
    · exact List.Perm.append_left _ (hp.map _)

/-- C20: the result of `add_document` does not depend on the order in which
`freqs` is iterated: two enumerations of the entries of the document give
indexes with the same terms and, for each term, the same `cf`, the same `df`
and the same postings up to their order; the document store and the
statistics are the same. -/
theorem add_document_order_independent (s : InvertedIndex) (doc : Document)
    (order1 order2 : List (List Nat × Nat))
    (h1 : order1.Perm (tokenize_document doc [] s.stats_).1)
    (h2 : order2.Perm (tokenize_document doc [] s.stats_).1) :
    (∀ t, (map_find (add_document_iter s doc order1).index_ t).isSome =
      (map_find (add_document_iter s doc order2).index_ t).isSome) ∧
    (∀ t i1 i2, map_find (add_document_iter s doc order1).index_ t = some i1 →
      map_find (add_document_iter s doc order2).index_ t = some i2 →
      i1.cf = i2.cf ∧ i1.df = i2.df ∧ i1.postings.Perm i2.postings) ∧
    (add_document_iter s doc order1).docs_ = (add_document_iter s doc order2).docs_ ∧
    (add_document_iter s doc order1).stats_ = (add_document_iter s doc order2).stats_ := by
  have hp : order1.Perm order2 := h1.trans h2.symm
  exact ⟨fun t => (index_entries_perm doc.id s.index_ order1 order2 hp t).1,
    fun t => (index_entries_perm doc.id s.index_ order1 order2 hp t).2, rfl, rfl⟩

/-- Witness of C20: the two entries of `doc_two_forms` are filed under the
same term `abc`; visited in either order they give the same counts and the
same two postings, in a different order. -/
theorem add_document_order_independent_witness :
    map_find (add_document_iter {} doc_two_forms
        [(bytes "abc", 2), (bytes "abcation", 1)]).index_ (bytes "abc") =
      some { cf := 3, df := 2, postings := [⟨3, 2⟩, ⟨3, 1⟩] } ∧
    map_find (add_document_iter {} doc_two_forms
        [(bytes "abcation", 1), (bytes "abc", 2)]).index_ (bytes "abc") =
      some { cf := 3, df := 2, postings := [⟨3, 1⟩, ⟨3, 2⟩] } ∧
    ((3 : Nat) = 3 ∧ (2 : Nat) = 2 ∧
      ([⟨3, 2⟩, ⟨3, 1⟩] : List Posting).Perm [⟨3, 1⟩, ⟨3, 2⟩]) :=
  ⟨by decide!, by decide!,
   (add_document_order_independent {} doc_two_forms
      [(bytes "abc", 2), (bytes "abcation", 1)] [(bytes "abcation", 1), (bytes "abc", 2)]
      (by decide!) (by decide!)).2.1 (bytes "abc")
      { cf := 3, df := 2, postings := [⟨3, 2⟩, ⟨3, 1⟩] }
      { cf := 3, df := 2, postings := [⟨3, 1⟩, ⟨3, 2⟩] } (by decide!) (by decide!)⟩

/-! ## Sums over the frequency map and over the index -/

/-- What `map_modify` does to the sum of a quantity over the entries: the
entry found under the key, or the default one, is replaced by its update. -/
theorem sum_map_modify {ν : Type} (g : ν → Nat) (dflt : ν) (f : ν → ν) (hg : g dflt = 0)
    (m : List (List Nat × ν)) (k : List Nat) :
    ((map_modify dflt f m k).map (fun e => g e.2)).sum + g ((map_find m k).getD dflt) =
      (m.map (fun e => g e.2)).sum + g (f ((map_find m k).getD dflt)) := by
  induction m with
  | nil => simp [map_modify, map_find, hg]
  | cons e m ih =>
    obtain ⟨k1, v1⟩ := e
    by_cases h : k1 = k
    · subst h
      simp only [map_modify, map_find, if_true, List.map_cons, List.sum_cons, Option.getD_some]
      omega
    · simp only [map_modify, map_find, if_neg h, List.map_cons, List.sum_cons]
      omega

theorem counts_fit_find (freqs : List (List Nat × Nat)) (toks : List (List Nat))
    (h : counts_fit freqs toks) (w : List Nat) :
    (map_find freqs w).getD 0 + toks.count w < 2 ^ 32 := by
  cases hf : map_find freqs w with
  | none => simpa using h.2 w
  | some v => simpa using (h.1 (w, v) (map_find_some_mem _ _ _ hf)).2

theorem counts_fit_step (freqs : List (List Nat × Nat)) (t : List Nat)
    (toks : List (List Nat)) (h : counts_fit freqs (t :: toks)) :
    counts_fit (map_modify 0 (fun n => u32 (n + 1)) freqs t) toks := by
  have hb : ∀ w, toks.count w ≤ (t :: toks).count w := fun w =>
    List.Sublist.count_le (List.sublist_cons_self t toks) w
  have ht : (t :: toks).count t = toks.count t + 1 := List.count_cons_self t toks
  refine ⟨?_, fun w => lt_of_le_of_lt (hb w) (h.2 w)⟩
  intro e he
  rcases mem_map_modify _ _ _ _ e he with h1 | ⟨hk, h1 | ⟨v, hv, h1⟩⟩
  · have := h.1 e h1
    have := hb e.1
    omega
  · have := h.2 t
    rw [hk, h1]
    simp only [u32]
    omega
  · have := (h.1 (t, v) hv).2
    simp only at this
    rw [hk, h1]
    simp only [u32]
    omega

/-- Without wrap-around the counts of the frequency map add up to the number
of tokens counted. -/
theorem sum_count_tokens (toks : List (List Nat)) (freqs : List (List Nat × Nat))
    (h : counts_fit freqs toks) :
    ((count_tokens freqs toks).map Prod.snd).sum = (freqs.map Prod.snd).sum + toks.length ∧
      ∀ e ∈ count_tokens freqs toks, 1 ≤ e.2 := by
  induction toks generalizing freqs with
  | nil => exact ⟨by simp [count_tokens], fun e he => (h.1 e he).1⟩
  | cons t toks ih =>
    rw [count_tokens_cons]
    have h2 := ih _ (counts_fit_step freqs t toks h)
    refine ⟨?_, h2.2⟩
    rw [h2.1]
    have hs : ((map_modify 0 (fun n => u32 (n + 1)) freqs t).map Prod.snd).sum
        + (map_find freqs t).getD 0
        = (freqs.map Prod.snd).sum + u32 ((map_find freqs t).getD 0 + 1) :=
      sum_map_modify (fun n : Nat => n) 0 (fun n => u32 (n + 1)) rfl freqs t
    have hf := counts_fit_find freqs (t :: toks) h t
    have ht : (t :: toks).count t = toks.count t + 1 := List.count_cons_self t toks
    have hu : u32 ((map_find freqs t).getD 0 + 1) = (map_find freqs t).getD 0 + 1 :=
      Nat.mod_eq_of_lt (by omega)
    rw [hu] at hs
    rw [List.length_cons]
    omega

theorem count_retained_le (text w : List Nat) :
    (retained_runs text).count w ≤ (token_runs text).count w :=
  List.Sublist.count_le (List.filter_sublist _) w

/-- The entries `tokenize_document` produces for a document in which no token
occurs `2^32` times: every count is at least 1 and the counts add up to the
number of retained occurrences. -/
theorem freqs_sum_of_fit (doc : Document) (stats : TokenizationStats)
    (h : ∀ w, (token_runs (strip_tags doc.text)).count w < 2 ^ 32) :
    ((tokenize_document doc [] stats).1.map Prod.snd).sum =
        (retained_runs (strip_tags doc.text)).length ∧
      ∀ e ∈ (tokenize_document doc [] stats).1, 1 ≤ e.2 := by
  rw [tokenize_document_spec]
  simp only
  have hfit : counts_fit [] (retained_runs (strip_tags doc.text)) :=
    ⟨by simp, fun w => lt_of_le_of_lt (count_retained_le _ w) (h w)⟩
  have := sum_count_tokens _ [] hfit
  simpa using this

theorem cf_sum_modify (index : List (List Nat × TokenInfo)) (doc_id freq : Nat)
    (k : List Nat) :
    u64 (cf_sum (map_modify {} (add_posting doc_id freq) index k)) = u64 (cf_sum index + freq) ∧
      cf_sum (map_modify {} (add_posting doc_id freq) index k) ≤ cf_sum index + freq := by
  have hs : cf_sum (map_modify {} (add_posting doc_id freq) index k)
      + ((map_find index k).getD {}).cf
      = cf_sum index + u64 (((map_find index k).getD {}).cf + freq) :=
    sum_map_modify TokenInfo.cf {} (add_posting doc_id freq) rfl index k
  unfold u64 at hs ⊢
  constructor <;> omega

/-- The loop of `add_document` adds the frequencies of the entries it visits
to the sum of `cf`, each addition being one on `uint64_t`. -/
theorem cf_sum_index_entries (doc_id : Nat) (entries : List (List Nat × Nat))
    (index : List (List Nat × TokenInfo)) :
    u64 (cf_sum (index_entries doc_id index entries)) =
        u64 (cf_sum index + (entries.map Prod.snd).sum) ∧
      cf_sum (index_entries doc_id index entries) ≤ cf_sum index + (entries.map Prod.snd).sum := by
  induction entries generalizing index with
  | nil => simp [index_entries]
  | cons kv rest ih =>
    obtain ⟨tok, freq⟩ := kv
    rw [index_entries]
    have h1 := ih (map_modify {} (add_posting doc_id freq) index (normalize_term tok))
    have h2 := cf_sum_modify index doc_id freq (normalize_term tok)
    simp only [List.map_cons, List.sum_cons]
    unfold u64 at h1 h2 ⊢
    constructor <;> omega

theorem retained_total_append (docs : List Document) (doc : Document) :
    retained_total (docs ++ [doc]) =
      retained_total docs + (retained_runs (strip_tags doc.text)).length := by
  simp [retained_total]

theorem token_counts_fit_append (docs : List Document) (doc : Document)
    (h : token_counts_fit (docs ++ [doc])) :
    token_counts_fit docs ∧ ∀ w, (token_runs (strip_tags doc.text)).count w < 2 ^ 32 :=
  ⟨fun d hd => h d (List.mem_append_left _ hd), h doc (by simp)⟩

/-- The `tokens` counter after one `tokenize_document` call, from a counter
that is a `uint64_t` value. -/
theorem tokens_after (doc : Document) (freqs : List (List Nat × Nat))
    (stats : TokenizationStats) (n : Nat) (h : stats.tokens = u64 n) :
    (tokenize_document doc freqs stats).2.tokens =
      u64 (n + (retained_runs (strip_tags doc.text)).length) := by
  rw [tokenize_document_spec]
  simp only
  cases hk : retained_runs (strip_tags doc.text) with
  | nil => simpa [count_stats] using h
  | cons t toks =>
    rw [(count_stats_tokens toks t _).1]
    simp only [h, u64_add_left]

/-- The counters of a state built from documents in which no token occurs
`2^32` times: `tokens` and the sum of `cf` are the number of retained
occurrences, as `uint64_t` values, and the sum of `cf` never exceeds it. -/
theorem built_cf_sum (docs : List Document) (s : InvertedIndex) (hb : Built docs s)
    (hfit : token_counts_fit docs) :
    s.stats_.tokens = u64 (retained_total docs) ∧
      u64 (cf_sum s.index_) = u64 (retained_total docs) ∧
      cf_sum s.index_ ≤ retained_total docs := by
  induction hb with
  | empty => simp [retained_total, cf_sum, u64]
  | add docs s doc order _ hp ih =>
    obtain ⟨hfit1, hfit2⟩ := token_counts_fit_append docs doc hfit
    obtain ⟨i1, i2, i3⟩ := ih hfit1
    have hsum : (order.map Prod.snd).sum = (retained_runs (strip_tags doc.text)).length := by
      rw [(hp.map Prod.snd).sum_eq]
      exact (freqs_sum_of_fit doc s.stats_ hfit2).1
    have hc := cf_sum_index_entries doc.id order s.index_
    rw [hsum] at hc
    rw [retained_total_append]
    refine ⟨tokens_after doc [] s.stats_ _ i1, ?_, ?_⟩
    · simp only [add_document_iter]
      rw [hc.1]
      unfold u64 at i2 ⊢
      omega
    · simp only [add_document_iter]
      omega

theorem map_modify_keys {ν : Type} (dflt : ν) (f : ν → ν) (m : List (List Nat × ν))
    (k : List Nat) :
    (map_modify dflt f m k).map Prod.fst =
      if k ∈ m.map Prod.fst then m.map Prod.fst else m.map Prod.fst ++ [k] := by
  induction m with
  | nil => simp [map_modify]
  | cons e m ih =>
    obtain ⟨k1, v1⟩ := e
    by_cases h : k1 = k
    · subst h
      simp [map_modify]
    · have h2 : ¬ k = k1 := fun e => h e.symm
      simp only [map_modify, if_neg h, List.map_cons, ih, List.mem_cons, h2, false_or]
      split <;> simp

theorem map_modify_keys_nodup {ν : Type} (dflt : ν) (f : ν → ν) (m : List (List Nat × ν))
    (k : List Nat) (h : (m.map Prod.fst).Nodup) :
    ((map_modify dflt f m k).map Prod.fst).Nodup := by
  rw [map_modify_keys]
  split
  · exact h
  · rename_i hk
    rw [List.nodup_append]
    refine ⟨h, List.nodup_singleton k, ?_⟩
    intro a ha hb
    rw [List.mem_singleton] at hb
    subst hb
    exact hk ha

theorem index_entries_keys_nodup (doc_id : Nat) (entries : List (List Nat × Nat))
    (index : List (List Nat × TokenInfo)) (h : (index.map Prod.fst).Nodup) :
    ((index_entries doc_id index entries).map Prod.fst).Nodup := by
  induction entries generalizing index with
  | nil => simpa [index_entries] using h
  | cons kv rest ih =>
    obtain ⟨tok, freq⟩ := kv
    rw [index_entries]
    exact ih _ (map_modify_keys_nodup _ _ _ _ h)

/-- A term has one entry in a reachable index. -/
theorem reachable_keys_nodup (s : InvertedIndex) (h : Reachable s) :
    (s.index_.map Prod.fst).Nodup := by
  induction h with
  | empty => exact List.nodup_nil
  | add s doc order _ _ ih => exact index_entries_keys_nodup doc.id order s.index_ ih

theorem token_counts_fit_of_short (docs : List Document)
    (h : ∀ d ∈ docs, (token_runs (strip_tags d.text)).length < 2 ^ 32) :
    token_counts_fit docs :=
  fun d hd w => lt_of_le_of_lt (List.count_le_length w _) (h d hd)

/-! ## The claims on the counters of the reachable states -/

/-- C21: in a state built by `add_document` calls from documents in none of
which a token occurs `2^32` times or more, every term has one entry and the
sum of `cf` over the terms equals the `tokens` counter: every retained
occurrence, counted before stemming, is counted once in one `cf`.  The counter
is a `uint64_t`: the equality holds modulo `2^64`, and exactly when the number
of retained occurrences of the corpus fits, both sides being that number. -/
theorem cf_sum_equals_tokens (docs : List Document) (s : InvertedIndex)
    (hb : Built docs s) (hfit : token_counts_fit docs) :
    (s.index_.map Prod.fst).Nodup ∧
    u64 (cf_sum s.index_) = s.stats_.tokens ∧
    (retained_total docs < 2 ^ 64 →
      cf_sum s.index_ = s.stats_.tokens ∧ s.stats_.tokens = retained_total docs) := by
  obtain ⟨i1, i2, i3⟩ := built_cf_sum docs s hb hfit
  refine ⟨reachable_keys_nodup s (reachable_of_built docs s hb), by rw [i1, i2], ?_⟩
  intro hlt
  have h1 : u64 (retained_total docs) = retained_total docs := Nat.mod_eq_of_lt hlt
  have h2 : u64 (cf_sum s.index_) = cf_sum s.index_ :=
    Nat.mod_eq_of_lt (lt_of_le_of_lt i3 hlt)
  rw [i1, h1, ← h2, i2, h1]
  exact ⟨rfl, rfl⟩

/-- Witness of C21 on the scenario corpus: four retained occurrences, and the
`cf` of its three terms add up to the `tokens` counter. -/
theorem cf_sum_equals_tokens_witness :
    retained_total [doc1, doc2] = 4 ∧
    cf_sum corpus.index_ = corpus.stats_.tokens ∧
    corpus.stats_.tokens = retained_total [doc1, doc2] :=
  ⟨by decide!,
   (cf_sum_equals_tokens [doc1, doc2] corpus built_corpus
     (token_counts_fit_of_short [doc1, doc2] (by decide!))).2.2 (by decide!)⟩

/-! ## Term frequencies of the reachable states -/

/-- A property of `TokenInfo` that holds of the fresh entry and is kept by
`add_posting` for the frequencies of the entries visited holds of the whole
index after the loop of `add_document`. -/
theorem index_entries_forall_mem (P : TokenInfo → Prop) (doc_id : Nat) (h0 : P {})
    (entries : List (List Nat × Nat))
    (hstep : ∀ e ∈ entries, ∀ info, P info → P (add_posting doc_id e.2 info))
    (index : List (List Nat × TokenInfo)) (h : ∀ x ∈ index, P x.2) :
    ∀ x ∈ index_entries doc_id index entries, P x.2 := by
  induction entries generalizing index with
  | nil => simpa [index_entries] using h
  | cons kv rest ih =>
    obtain ⟨tok, freq⟩ := kv
    rw [index_entries]
    apply ih (fun e he => hstep e (List.mem_cons_of_mem _ he))
    intro x hx
    have hs := hstep (tok, freq) (List.mem_cons_self _ _)
    rcases mem_map_modify _ _ _ _ x hx with h1 | ⟨_, h1 | ⟨v, hv, h1⟩⟩
    · exact h x h1
    · rw [h1]
      exact hs _ h0
    · rw [h1]
      exact hs v (h _ hv)

/-- In a state built from documents in none of which a token occurs `2^32`
times or more, every posting has a term frequency of at least 1. -/
theorem built_tf_pos (docs : List Document) (s : InvertedIndex) (hb : Built docs s)
    (hfit : token_counts_fit docs) :
    ∀ x ∈ s.index_, ∀ p ∈ x.2.postings, 1 ≤ p.tf := by
  induction hb with
  | empty => intro x hx; simp at hx
  | add docs s doc order _ hp ih =>
    obtain ⟨hfit1, hfit2⟩ := token_counts_fit_append docs doc hfit
    apply index_entries_forall_mem (fun info => ∀ p ∈ info.postings, 1 ≤ p.tf) doc.id
    · intro p hp0
      simp at hp0
    · intro e he info hinfo p hpm
      simp only [add_posting, List.mem_append, List.mem_singleton] at hpm
      rcases hpm with hpm | rfl
      · exact hinfo p hpm
      · exact (freqs_sum_of_fit doc s.stats_ hfit2).2 e (hp.mem_iff.1 he)
    · exact ih hfit1

theorem posting_weight_ge (ps : List Posting) (p : Posting) (h : p ∈ ps) :
    p.tf ≤ posting_weight ps p.doc_id := by
  unfold posting_weight
  apply List.le_sum_of_mem
  rw [List.mem_map]
  exact ⟨p, by simp [List.mem_filter, h], rfl⟩

/-- When every posting has a term frequency of at least 1, the sum of the
term frequencies that makes the score of a hit is at least 1. -/
theorem search_hit_weight_pos (s : InvertedIndex) (query : List Nat) (h : SearchHit)
    (htf : ∀ x ∈ s.index_, ∀ p ∈ x.2.postings, 1 ≤ p.tf) (hh : h ∈ search s query) :
    1 ≤ query_weight s.index_ (unique_terms query) h.doc_id := by
  have hid : h.doc_id ∈ hit_ids (search s query) := List.mem_map_of_mem _ hh
  rw [mem_hit_ids_search] at hid
  obtain ⟨g, hg, ⟨t, ht, hne⟩, hall⟩ := hid
  have hmem : normalize_term (trim t) ∈ unique_terms query := by
    rw [mem_unique_terms, mem_query_terms]
    exact ⟨g, hg, t, ht, hne, rfl⟩
  have hd := hall t ht hne
  unfold posting_ids at hd
  cases hf : map_find s.index_ (normalize_term (trim t)) with
  | none => simp [hf] at hd
  | some info =>
    simp only [hf, List.mem_map] at hd
    obtain ⟨p, hp, hpid⟩ := hd
    have h1 := htf _ (map_find_some_mem _ _ _ hf) p hp
    have h2 := posting_weight_ge info.postings p hp
    rw [hpid] at h2
    have h3 : term_weight s.index_ h.doc_id (normalize_term (trim t))
        = posting_weight info.postings h.doc_id := by
      simp [term_weight, hf]
    rw [query_weight_eq]
    have h4 : term_weight s.index_ h.doc_id (normalize_term (trim t))
        ≤ ((unique_terms query).map (term_weight s.index_ h.doc_id)).sum :=
      List.le_sum_of_mem (List.mem_map_of_mem _ hmem)
    omega

/-! ## A token that occurs `2^32` times -/

theorem token_runs_x_blank (rest : List Nat) :
    token_runs (120 :: 32 :: rest) = [120] :: token_runs rest := by
  have h1 : is_token_char 120 = true := by decide
  have h2 : ¬ is_token_char 32 = true := by decide
  simp [token_runs, split_runs, h1, h2]

theorem token_runs_repeat (n : Nat) :
    token_runs ((List.replicate n [120, 32]).flatten) = List.replicate n [120] := by
  induction n with
  | zero => simp [token_runs, split_runs]
  | succ n ih =>
    rw [List.replicate_succ, List.flatten_cons]
    show token_runs (120 :: 32 :: (List.replicate n [120, 32]).flatten) = _
    rw [token_runs_x_blank, ih, List.replicate_succ]

theorem strip_tags_repeat (n : Nat) :
    strip_tags ((List.replicate n [120, 32]).flatten) = (List.replicate n [120, 32]).flatten := by
  have h60 : 60 ∉ (List.replicate n [120, 32]).flatten := by
    rw [List.mem_flatten]
    rintro ⟨l, hl, hc⟩
    rw [List.eq_of_mem_replicate hl] at hc
    simp at hc
  have h := strip_tags_loop_outside _ [] h60
  rw [List.append_nil] at h
  unfold strip_tags
  rw [h]
  simp [strip_tags_loop]

theorem retained_runs_repeat (n : Nat) :
    retained_runs (strip_tags (doc_repeat n).text) = List.replicate n [120] := by
  have hx : ([120] : List Nat) ∉ kStopwords := by decide
  unfold doc_repeat retained_runs
  simp only
  rw [strip_tags_repeat, token_runs_repeat, List.filter_eq_self]
  intro r hr
  rw [List.eq_of_mem_replicate hr]
  simpa using hx

theorem count_tokens_replicate (x : List Nat) (n v : Nat) :
    count_tokens [(x, u32 v)] (List.replicate n x) = [(x, u32 (v + n))] := by
  induction n generalizing v with
  | zero => rfl
  | succ n ih =>
    rw [List.replicate_succ, count_tokens_cons]
    have h : map_modify 0 (fun k => u32 (k + 1)) [(x, u32 v)] x = [(x, u32 (v + 1))] := by
      simp [map_modify, u32_add_left]
    rw [h, ih]
    congr 3
    omega

/-- The frequency map of `doc_repeat n`: one entry, whose count is `n` on
`uint32_t`. -/
theorem freqs_repeat (n : Nat) (stats : TokenizationStats) (hn : 0 < n) :
    (tokenize_document (doc_repeat n) [] stats).1 = [([120], u32 n)] := by
  rw [tokenize_document_spec]
  simp only
  rw [retained_runs_repeat]
  obtain ⟨m, rfl⟩ : ∃ m, n = m + 1 := ⟨n - 1, by omega⟩
  rw [List.replicate_succ, count_tokens_cons]
  have h : map_modify 0 (fun k => u32 (k + 1)) ([] : List (List Nat × Nat)) [120]
      = [([120], u32 1)] := by
    simp [map_modify]
  rw [h, count_tokens_replicate]
  congr 3
  omega

/-- The index after `doc_repeat n` is added to the empty index. -/
theorem index_repeat (n : Nat) (hn : 0 < n) :
    (add_document {} (doc_repeat n)).index_ =
      [([120], { cf := u64 (u32 n), df := 1, postings := [⟨1, u32 n⟩] })] := by
  unfold add_document add_document_iter
  simp only
  rw [freqs_repeat n _ hn]
  have hk : normalize_term [120] = [120] := by decide
  simp [index_entries, map_modify, add_posting, hk, doc_repeat, u32]

/-- C22 fails on the code as stated: `++freqs[token]` counts in a `uint32_t`,
so the document in which the token `x` occurs `2^32` times gets the posting
`(1, 0)`, in a state reached by one `add_document` call, and the query `x`
returns document 1 with score 0. -/
theorem tf_zero_after_wrap :
    Built [doc_repeat 4294967296] (add_document {} (doc_repeat 4294967296)) ∧
    (token_runs (strip_tags (doc_repeat 4294967296).text)).count (bytes "x") = 4294967296 ∧
    (add_document {} (doc_repeat 4294967296)).index_ =
      [(bytes "x", { cf := 0, df := 1, postings := [⟨1, 0⟩] })] ∧
    search (add_document {} (doc_repeat 4294967296)) (bytes "x") = [⟨1, 0⟩] ∧
    ¬ (∀ s, Reachable s →
        (∀ term info p, (term, info) ∈ s.index_ → p ∈ info.postings → 1 ≤ p.tf) ∧
        (∀ query h, h ∈ search s query → 1 ≤ h.score)) := by
  have hx : bytes "x" = [120] := by decide
  have hb : Built [doc_repeat 4294967296] (add_document {} (doc_repeat 4294967296)) :=
    Built.add [] {} (doc_repeat 4294967296) _ Built.empty (List.Perm.refl _)
  have hu : u32 4294967296 = 0 := by decide
  have hidx : (add_document {} (doc_repeat 4294967296)).index_ =
      [([120], { cf := 0, df := 1, postings := [⟨1, 0⟩] })] := by
    rw [index_repeat 4294967296 (by decide), hu]
    rfl
  have hsearch : search (add_document {} (doc_repeat 4294967296)) [120] = [⟨1, 0⟩] := by
    unfold search search_iter
    rw [hidx]
    decide
  rw [hx]
  refine ⟨hb, ?_, hidx, hsearch, ?_⟩
  · unfold doc_repeat
    simp only
    rw [strip_tags_repeat, token_runs_repeat]
    exact List.count_replicate_self _ _
  · intro hall
    have h := (hall _ (reachable_of_built _ _ hb)).2 [120] ⟨1, 0⟩ (by rw [hsearch]; simp)
    exact absurd h (by decide)

/-- C22, amended: in a state built by `add_document` calls from documents in
none of which a token occurs `2^32` times or more, every posting has a term
frequency of at least 1; consequently, for every query, the sum of term
frequencies that makes the score of a hit is at least 1, and so is the score,
a `uint64_t`, when that sum fits. -/
theorem postings_tf_positive (docs : List Document) (s : InvertedIndex)
    (hb : Built docs s) (hfit : token_counts_fit docs) :
    (∀ term info p, (term, info) ∈ s.index_ → p ∈ info.postings → 1 ≤ p.tf) ∧
    (∀ query h, h ∈ search s query →
      1 ≤ query_weight s.index_ (unique_terms query) h.doc_id ∧
      h.score = u64 (query_weight s.index_ (unique_terms query) h.doc_id) ∧
      (query_weight s.index_ (unique_terms query) h.doc_id < 2 ^ 64 → 1 ≤ h.score)) := by
  have htf := built_tf_pos docs s hb hfit
  refine ⟨fun term info p hm hp => htf (term, info) hm p hp, ?_⟩
  intro query h hh
  have hw := search_hit_weight_pos s query h htf hh
  have hs := search_hit_score s query h hh
  refine ⟨hw, hs, ?_⟩
  intro hlt
  rw [hs, show u64 (query_weight s.index_ (unique_terms query) h.doc_id)
    = query_weight s.index_ (unique_terms query) h.doc_id from Nat.mod_eq_of_lt hlt]
  exact hw

/-- Witness of the amended C22 on the scenario corpus: the hit of document 1
for `кошка | собака` has a score of at least 1. -/
theorem postings_tf_positive_witness :
    (⟨1, 2⟩ : SearchHit) ∈ search corpus (bytes "кошка | собака") ∧
    1 ≤ (⟨1, 2⟩ : SearchHit).score :=
  ⟨by rw [corpus_eq]; decide!,
   ((postings_tf_positive [doc1, doc2] corpus built_corpus
      (token_counts_fit_of_short [doc1, doc2] (by decide!))).2
      (bytes "кошка | собака") ⟨1, 2⟩ (by rw [corpus_eq]; decide!)).2.2
      (by rw [corpus_eq]; decide!)⟩

/-- C15 fails on the code as stated: the text made of `2^32` times the token
`x` followed by a blank has no ASCII uppercase letter and `2^32` maximal runs
equal to `x`, which is not a stopword, yet the frequency map holds 0 for `x`:
`++freqs[token]` counts in a `uint32_t`. -/
theorem freq_zero_after_wrap :
    (∀ c ∈ (doc_repeat 4294967296).text, ¬ (65 ≤ c ∧ c ≤ 90)) ∧
    bytes "x" ∉ kStopwords ∧
    (token_runs (strip_tags (doc_repeat 4294967296).text)).count (bytes "x") = 4294967296 ∧
    map_find (tokenize_document (doc_repeat 4294967296) [] {}).1 (bytes "x") = some 0 ∧
    ¬ (∀ (doc : Document) (stats : TokenizationStats) (w : List Nat),
        (∀ c ∈ doc.text, ¬ (65 ≤ c ∧ c ≤ 90)) →
        w ∈ token_runs (strip_tags doc.text) → w ∉ kStopwords →
        map_find (tokenize_document doc [] stats).1 w =
          some ((token_runs (strip_tags doc.text)).count w)) := by
  have hx : bytes "x" = [120] := by decide
  have hstop : ([120] : List Nat) ∉ kStopwords := by decide
  have hup : ∀ c ∈ (doc_repeat 4294967296).text, ¬ (65 ≤ c ∧ c ≤ 90) := by
    intro c hc
    unfold doc_repeat at hc
    simp only [List.mem_flatten] at hc
    obtain ⟨l, hl, hcl⟩ := hc
    rw [List.eq_of_mem_replicate hl] at hcl
    simp only [List.mem_cons, List.mem_singleton, List.not_mem_nil, or_false] at hcl
    omega
  have hruns : token_runs (strip_tags (doc_repeat 4294967296).text)
      = List.replicate 4294967296 [120] := by
    unfold doc_repeat
    simp only
    rw [strip_tags_repeat, token_runs_repeat]
  have hcount : (token_runs (strip_tags (doc_repeat 4294967296).text)).count [120]
      = 4294967296 := by
    rw [hruns]
    exact List.count_replicate_self _ _
  have hu : u32 4294967296 = 0 := by decide
  have hfind : map_find (tokenize_document (doc_repeat 4294967296) [] {}).1 [120] = some 0 := by
    rw [freqs_repeat 4294967296 {} (by decide), hu]
    simp [map_find]
  rw [hx]
  refine ⟨hup, hstop, hcount, hfind, ?_⟩
  intro hall
  have hmem : ([120] : List Nat) ∈ token_runs (strip_tags (doc_repeat 4294967296).text) := by
    rw [← List.count_pos_iff, hcount]
    decide
  have h := hall (doc_repeat 4294967296) {} [120] hup hmem hstop
  rw [hfind, hcount] at h
  exact absurd h (by decide)

/-! ## A term that occurs in `2^32` documents -/

theorem freqs_doc_x (k : Nat) (stats : TokenizationStats) :
    (tokenize_document (doc_x k) [] stats).1 = [([120], 1)] := by
  rw [tokenize_document_freqs]
  have h : (tokenize_document (doc_x k) [] {}).1 = (tokenize_document (doc_x 0) [] {}).1 := rfl
  rw [h]
  decide!

/-- Adding `doc_x k` updates the entry of `x` and nothing else. -/
theorem add_doc_x_index (s : InvertedIndex) (k : Nat) :
    (add_document s (doc_x k)).index_ = map_modify {} (add_posting k 1) s.index_ [120] := by
  unfold add_document add_document_iter
  simp only
  rw [freqs_doc_x]
  have hk : normalize_term [120] = [120] := by decide
  simp [index_entries, hk, doc_x]

/-- The index after `doc_x 1`, ..., `doc_x n`: one entry, whose counters are
`n` on `uint64_t` and `uint32_t`. -/
theorem index_of_x_index (n : Nat) :
    ∃ ps, (index_of_x (n + 1)).index_ =
      [([120], { cf := u64 (n + 1), df := u32 (n + 1), postings := ps })] := by
  induction n with
  | zero =>
    refine ⟨[⟨1, 1⟩], ?_⟩
    show (add_document {} (doc_x 1)).index_ = _
    rw [add_doc_x_index]
    simp [map_modify, add_posting]
  | succ n ih =>
    obtain ⟨ps, hps⟩ := ih
    refine ⟨ps ++ [⟨n + 1 + 1, 1⟩], ?_⟩
    show (add_document (index_of_x (n + 1)) (doc_x (n + 1 + 1))).index_ = _
    rw [add_doc_x_index, hps]
    simp [map_modify, add_posting, u64_add_left, u32_add_left]

theorem reachable_index_of_x (n : Nat) : Reachable (index_of_x n) := by
  induction n with
  | zero => exact Reachable.empty
  | succ n ih => exact Reachable.add _ (doc_x (n + 1)) _ ih (List.Perm.refl _)

/-- The entry of `x` before and after one more document holding `x` is added
to `index_of_x n`. -/
theorem index_of_x_step (n k : Nat) (hn : 0 < n) :
    ∃ info info2,
      map_find (index_of_x n).index_ [120] = some info ∧ info.df = u32 n ∧
      map_find (add_document (index_of_x n) (doc_x k)).index_ [120] = some info2 ∧
      info2.df = u32 (n + 1) := by
  obtain ⟨m, rfl⟩ : ∃ m, n = m + 1 := ⟨n - 1, by omega⟩
  obtain ⟨ps, hps⟩ := index_of_x_index m
  refine ⟨{ cf := u64 (m + 1), df := u32 (m + 1), postings := ps },
    add_posting k 1 { cf := u64 (m + 1), df := u32 (m + 1), postings := ps }, ?_, rfl, ?_, ?_⟩
  · rw [hps]
    simp [map_find]
  · rw [add_doc_x_index, hps]
    simp [map_find, map_modify]
  · simp [add_posting, u32_add_left]

/-- C19 fails on the code as stated: `df` is a `uint32_t`.  In the state
reached by `add_document` on `2^32 - 1` documents of distinct ids that hold
the token `x`, the entry of `x` has `df = 4294967295`; after one more such
document it has `df = 0`: the document frequency has decreased. -/
theorem df_zero_after_wrap :
    Reachable (index_of_x 4294967295) ∧
    (∃ info info2,
      map_find (index_of_x 4294967295).index_ (bytes "x") = some info ∧
      info.df = 4294967295 ∧
      map_find (add_document (index_of_x 4294967295) (doc_x 4294967296)).index_ (bytes "x")
        = some info2 ∧
      info2.df = 0) ∧
    ¬ (∀ (s : InvertedIndex) (doc : Document) (t : List Nat) (info info2 : TokenInfo),
        map_find s.index_ t = some info →
        map_find (add_document s doc).index_ t = some info2 → info.df ≤ info2.df) := by
  have hx : bytes "x" = [120] := by decide
  have h1 : u32 4294967295 = 4294967295 := by decide
  have h2 : u32 (4294967295 + 1) = 0 := by decide
  obtain ⟨info, info2, hf1, hd1, hf2, hd2⟩ :=
    index_of_x_step 4294967295 4294967296 (by decide)
  rw [h1] at hd1
  rw [h2] at hd2
  rw [hx]
  refine ⟨reachable_index_of_x 4294967295, ⟨info, info2, hf1, hd1, hf2, hd2⟩, ?_⟩
  intro hall
  have h := hall _ _ _ _ _ hf1 hf2
  rw [hd1, hd2] at h
  exact absurd h (by decide)

end InfoSearch
